import Mathlib

/-!
Shallow embedding of `src/rotation.py` (the Qubery rotation utilities) over the
real and complex numbers, together with proofs about the embedded operations.

Python floats are modelled as real numbers; `math.sqrt` is `Real.sqrt`,
`%` on floats is `pymod` below, and `round` is Mathlib's `round` (the two
differ only at exact half-integers, which the single call site
`smooth_near_quarter_turn` never reaches: there the argument is always
within `4e-6` of an integer).

The helper modules `trig_tau` and `quaternion` are not part of the sources;
they are modelled from the spec (section 6) as turns-based trigonometry and
Hamilton quaternions.  We use Mathlib's `Quaternion ℝ` for the latter.
-/

noncomputable section

open Real

/-- One full turn, in radians: the constant `trig_tau.tau`.
Modelled from the spec: the tau constant of the turns-based trig provider. -/
def tauR : ℝ := 2 * Real.pi

/-- Modelled from the spec: `trig_tau.cos`, cosine of an angle given in turns. -/
def cosT (t : ℝ) : ℝ := Real.cos (t * tauR)

/-- Modelled from the spec: `trig_tau.sin`, sine of an angle given in turns. -/
def sinT (t : ℝ) : ℝ := Real.sin (t * tauR)

/-- Modelled from the spec: `trig_tau.sinc`, the sine of a turns-angle divided by
the raw (turns) argument, with its limiting value `tauR` at zero.  This is the
normalization under which the doctested round-trips of `from_quaternion` in
`rotation.py` hold exactly (e.g. recovering `x = 0.25` from its quaternion). -/
def sincT (t : ℝ) : ℝ := if t = 0 then tauR else sinT t / t

/-- Modelled from the spec: `trig_tau.expi`, the unit complex exponential of an
angle given in turns. -/
def expiT (t : ℝ) : ℂ := Complex.exp ((t * tauR : ℝ) * Complex.I)

/-- Modelled from the spec: `trig_tau.atan2`, two-argument arctangent returning
turns.  `math.atan2 y x` is the argument of the complex number `x + i y`. -/
def atan2T (y x : ℝ) : ℝ := Complex.arg ((x : ℂ) + (y : ℝ) * Complex.I) / tauR

/-- Modelled from the spec: `trig_tau.acos`, arccosine returning turns. -/
def acosT (x : ℝ) : ℝ := Real.arccos x / tauR

/-- Modelled from the spec: `trig_tau.sin_scale_ratio`, the quantity
`sin(theta*fraction)/sin(theta)` (turns-based sine), with its limiting value
`fraction` at `theta = 0`. -/
def sinScaleFrac (theta f : ℝ) : ℝ := if theta = 0 then f else sinT (theta * f) / sinT theta

/-- Python's `%` on floats: `a - b * ⌊a / b⌋` (result has the sign of `b`). -/
def pymod (a b : ℝ) : ℝ := a - b * ⌊a / b⌋

/-- `smooth_near_quarter_turn` from `rotation.py`: snap a value to the nearest
multiple of `0.25` when it is within `1e-6` of one. -/
def smooth_near_quarter_turn (turns : ℝ) : ℝ :=
  if |pymod (turns - 0.125) 0.25 - 0.125| < 0.000001
  then (round (turns * 4) : ℝ) / 4
  else turns

/-- The `Rotation` class of `rotation.py`: raw axis components, each a signed
fraction of a full turn about that basis axis. -/
structure Rotation where
  x : ℝ
  y : ℝ
  z : ℝ

/-- `Rotation.turns`: Euclidean norm of the component vector. -/
def Rotation.turns (r : Rotation) : ℝ := Real.sqrt (r.x ^ 2 + r.y ^ 2 + r.z ^ 2)

/-- `Rotation.axis`: unit vector along the components, or `(0,0,0)` when the
length is below `1e-7`. -/
def Rotation.axis (r : Rotation) : ℝ × ℝ × ℝ :=
  if r.turns < 0.0000001 then (0, 0, 0)
  else (r.x / r.turns, r.y / r.turns, r.z / r.turns)

/-- `Rotation.__neg__`: componentwise negation. -/
instance : Neg Rotation := ⟨fun r => ⟨-r.x, -r.y, -r.z⟩⟩

theorem Rotation.neg_def (r : Rotation) : -r = ⟨-r.x, -r.y, -r.z⟩ := rfl

/-- The turn-reduction tail of `Rotation.__canonical`: reduce the (possibly
sign-flipped) turn modulo 1, collapse an exact zero turn to `(0,0,0,0)`, and
shift turns `≥ 0.5` down by a full turn. -/
def canonReduce (t1 x y z : ℝ) : ℝ × ℝ × ℝ × ℝ :=
  let t := pymod t1 1
  if t = 0 then (0, 0, 0, 0) else if t ≥ 0.5 then (t - 1, x, y, z) else (t, x, y, z)

/-- `Rotation.__canonical`: the comparison key used by `__eq__` and `__hash__`.
Flips the axis/turn sign when the first nonzero axis coordinate is negative,
then reduces the turn via `canonReduce`. -/
def Rotation.canonical (r : Rotation) : ℝ × ℝ × ℝ × ℝ :=
  let a := r.axis
  let s := if a.1 = 0 then (if a.2.1 = 0 then a.2.2 else a.2.1) else a.1
  canonReduce (if s < 0 then -r.turns else r.turns)
    (if s < 0 then -a.1 else a.1)
    (if s < 0 then -a.2.1 else a.2.1)
    (if s < 0 then -a.2.2 else a.2.2)

/-- `Rotation.__eq__`: equality of canonical tuples. -/
def Rotation.eqv (a b : Rotation) : Prop := a.canonical = b.canonical

/- ------------------------------------------------------------------ -/
/- Basic facts about `pymod`, `smooth_near_quarter_turn`.             -/
/- ------------------------------------------------------------------ -/

theorem pymod_one (a : ℝ) : pymod a 1 = Int.fract a := by
  rw [pymod, div_one, one_mul, Int.self_sub_floor]

theorem pymod_def (a b : ℝ) : pymod a b = a - b * ⌊a / b⌋ := rfl

/-- Evaluation of `smooth_near_quarter_turn` on inputs at (or `< 1e-6` above)
a quarter-integer: the snap branch fires and returns the quarter-integer. -/
theorem smooth_snap (k : ℤ) (u : ℝ) (h0 : (k : ℝ) / 4 ≤ u)
    (h1 : u < (k : ℝ) / 4 + 0.000001) : smooth_near_quarter_turn u = (k : ℝ) / 4 := by
  have hdiv : (u - 0.125) / 0.25 = 4 * u - 1 / 2 := by ring
  have hfl : ⌊(u - 0.125) / 0.25⌋ = k - 1 := by
    rw [hdiv, Int.floor_eq_iff]
    constructor
    · push_cast
      nlinarith
    · push_cast
      nlinarith
  have herr : pymod (u - 0.125) 0.25 - 0.125 = u - (k : ℝ) / 4 := by
    rw [pymod_def, hfl]
    push_cast
    ring
  have hround : round (u * 4) = k := by
    rw [round_eq, Int.floor_eq_iff]
    constructor
    · push_cast; nlinarith
    · push_cast; nlinarith
  rw [smooth_near_quarter_turn, herr, if_pos, hround]
  rw [abs_lt]
  constructor <;> nlinarith

theorem smooth_int_quarter (k : ℤ) : smooth_near_quarter_turn ((k : ℝ) / 4) = (k : ℝ) / 4 :=
  smooth_snap k _ le_rfl (by norm_num)

theorem smoothQ_zero : smooth_near_quarter_turn 0 = 0 := by
  have h := smooth_int_quarter 0
  simpa using h

/-- C9 helper: when the snap branch fires, the result is a quarter-integer. -/
theorem smooth_result_of_snap (u : ℝ)
    (h : |pymod (u - 0.125) 0.25 - 0.125| < 0.000001) :
    smooth_near_quarter_turn u = (round (u * 4) : ℝ) / 4 := by
  rw [smooth_near_quarter_turn, if_pos h]

/-- C9: idempotence of `smooth_near_quarter_turn`, and every quarter-integer is
a fixed point.  (Claim: for every real `v`,
`smooth_near_quarter_turn (smooth_near_quarter_turn v) = smooth_near_quarter_turn v`,
and every exact multiple of 0.25 is a fixed point.) -/
theorem smooth_near_quarter_turn_idempotent :
    (∀ v : ℝ, smooth_near_quarter_turn (smooth_near_quarter_turn v) =
      smooth_near_quarter_turn v) ∧
    (∀ k : ℤ, smooth_near_quarter_turn ((k : ℝ) * 0.25) = (k : ℝ) * 0.25) := by
  constructor
  · intro v
    by_cases h : |pymod (v - 0.125) 0.25 - 0.125| < 0.000001
    · rw [smooth_result_of_snap v h]
      exact smooth_int_quarter _
    · have hv : smooth_near_quarter_turn v = v := by
        rw [smooth_near_quarter_turn, if_neg h]
      rw [hv]
      rw [smooth_near_quarter_turn, if_neg h]
  · intro k
    have h := smooth_int_quarter k
    have hq : (k : ℝ) * 0.25 = (k : ℝ) / 4 := by push_cast; ring
    rw [hq]
    exact h

/-- C10: negation is the componentwise involution and preserves the turn count.
(Claim: `-r` has components exactly `(-r.x, -r.y, -r.z)`, `-(-r)` has the same
raw components as `r`, and `(-r).turns() = r.turns()`.) -/
theorem neg_componentwise_involutive_preserves_turns :
    ∀ r : Rotation, (-r).x = -r.x ∧ (-r).y = -r.y ∧ (-r).z = -r.z ∧
      -(-r) = r ∧ (-r).turns = r.turns := by
  intro r
  refine ⟨rfl, rfl, rfl, ?_, ?_⟩
  · simp [Rotation.neg_def]
  · show Real.sqrt ((-r.x) ^ 2 + (-r.y) ^ 2 + (-r.z) ^ 2) = _
    rw [Rotation.turns]
    ring_nf

/- ------------------------------------------------------------------ -/
/- Canonical form: range of the turn component (C6).                  -/
/- ------------------------------------------------------------------ -/

theorem canonReduce_range (t1 x y z : ℝ) :
    canonReduce t1 x y z = (0, 0, 0, 0) ∨
      (-(1 / 2 : ℝ) ≤ (canonReduce t1 x y z).1 ∧ (canonReduce t1 x y z).1 < 1 / 2) := by
  have h0 : 0 ≤ pymod t1 1 := by rw [pymod_one]; exact Int.fract_nonneg t1
  have h1 : pymod t1 1 < 1 := by rw [pymod_one]; exact Int.fract_lt_one t1
  by_cases hz : pymod t1 1 = 0
  · left
    simp [canonReduce, hz]
  · right
    by_cases hh : pymod t1 1 ≥ 0.5
    · have he : canonReduce t1 x y z = (pymod t1 1 - 1, x, y, z) := by
        simp [canonReduce, hz, hh]
      rw [he]
      constructor
      · show -(1 / 2 : ℝ) ≤ pymod t1 1 - 1
        have : (0.5 : ℝ) ≤ pymod t1 1 := hh
        nlinarith
      · show pymod t1 1 - 1 < 1 / 2
        nlinarith
    · have he : canonReduce t1 x y z = (pymod t1 1, x, y, z) := by
        simp [canonReduce, hz, hh]
      rw [he]
      constructor
      · show -(1 / 2 : ℝ) ≤ pymod t1 1
        nlinarith
      · show pymod t1 1 < 1 / 2
        push_neg at hh
        nlinarith [hh]

/-- C6 (amended): the canonical tuple is either exactly `(0,0,0,0)` or has its
turn component in the half-open interval `[-0.5, 0.5)` (the code's reduction
maps a turn of exactly `0.5` to `-0.5`, so the interval is closed on the left
and open on the right, not the other way around). -/
theorem canonical_turn_range (r : Rotation) :
    r.canonical = (0, 0, 0, 0) ∨
      (-(1 / 2 : ℝ) ≤ r.canonical.1 ∧ r.canonical.1 < 1 / 2) := by
  rw [Rotation.canonical]
  exact canonReduce_range _ _ _ _

theorem turns_mk_z (c : ℝ) (hc : 0 ≤ c) : (Rotation.mk 0 0 c).turns = c := by
  rw [Rotation.turns]
  have h : (0 : ℝ) ^ 2 + 0 ^ 2 + c ^ 2 = c ^ 2 := by ring
  rw [h, Real.sqrt_sq hc]

theorem turns_mk_x (a : ℝ) (ha : 0 ≤ a) : (Rotation.mk a 0 0).turns = a := by
  rw [Rotation.turns]
  have h : a ^ 2 + (0 : ℝ) ^ 2 + 0 ^ 2 = a ^ 2 := by ring
  rw [h, Real.sqrt_sq ha]

theorem canonReduce_high (t1 x y z t : ℝ) (hm : pymod t1 1 = t) (h0 : ¬(t = 0))
    (h5 : t ≥ 0.5) : canonReduce t1 x y z = (t - 1, x, y, z) := by
  rw [canonReduce]
  simp only [hm, if_neg h0, if_pos h5]

theorem canonReduce_low (t1 x y z t : ℝ) (hm : pymod t1 1 = t) (h0 : ¬(t = 0))
    (h5 : ¬(t ≥ 0.5)) : canonReduce t1 x y z = (t, x, y, z) := by
  rw [canonReduce]
  simp only [hm, if_neg h0, if_neg h5]

theorem canonReduce_zero (t1 x y z : ℝ) (hm : pymod t1 1 = 0) :
    canonReduce t1 x y z = (0, 0, 0, 0) := by
  rw [canonReduce]
  simp [hm]

/-- Unfolding of `Rotation.canonical` when the first nonzero axis coordinate is
not negative (so no sign flip happens). -/
theorem canonical_eval_pos (r : Rotation) (ax ay az : ℝ) (ha : r.axis = (ax, ay, az))
    (hs : ¬((if ax = 0 then (if ay = 0 then az else ay) else ax) < 0)) :
    r.canonical = canonReduce r.turns ax ay az := by
  rw [Rotation.canonical, ha]
  simp only [if_neg hs]

theorem canonical_half_z : (Rotation.mk 0 0 0.5).canonical = (-(1 / 2 : ℝ), 0, 0, 1) := by
  have ht : (Rotation.mk 0 0 0.5).turns = 0.5 := turns_mk_z 0.5 (by norm_num)
  have haxis : (Rotation.mk 0 0 0.5).axis = (0, 0, 1) := by
    rw [Rotation.axis, if_neg (by rw [ht]; norm_num), ht]
    norm_num
  rw [canonical_eval_pos _ 0 0 1 haxis (by norm_num), ht]
  have hm : pymod (0.5 : ℝ) 1 = 0.5 := by
    rw [pymod_one]
    exact Int.fract_eq_self.mpr (by constructor <;> norm_num)
  rw [canonReduce_high _ _ _ _ _ hm (by norm_num) (by norm_num)]
  norm_num

/-- C6 counterexample: at the half turn `Rotation(z=0.5)` the canonical tuple is
`(-0.5, 0, 0, 1)`: it is not `(0,0,0,0)` and its turn component is not in the
claimed interval `(-0.5, 0.5]`. -/
theorem canonical_turn_range_half_turn :
    ¬((Rotation.mk 0 0 0.5).canonical = (0, 0, 0, 0) ∨
      (-(1 / 2 : ℝ) < (Rotation.mk 0 0 0.5).canonical.1 ∧
        (Rotation.mk 0 0 0.5).canonical.1 ≤ 1 / 2)) := by
  rw [canonical_half_z]
  push_neg
  constructor
  · intro h
    have h1 := congrArg (fun p => p.1) h
    norm_num at h1
  · intro h
    norm_num at h

/- ------------------------------------------------------------------ -/
/- `plus_rotation_simplified` (C5, C8).                               -/
/- ------------------------------------------------------------------ -/

open Classical

/-- `Rotation.plus_rotation_simplified`: append `nxt` to `prev`, first trying
perfect cancellation against the last element and then the
three-equal-quarter-turns rewrite.  Python's `prev[:-1]`, `prev[:-2]` and
`prev[-1]`, `prev[-2]` are `take (n-1)`, `take (n-2)` and the elements at
positions `n-1`, `n-2` (the defaults of `getLastD`/`getD` are never consulted:
the length guards run first, mirroring Python's short-circuit `and`). -/
def plus_rotation_simplified (prev : List Rotation) (nxt : Rotation) : List Rotation :=
  if 1 ≤ prev.length ∧ Rotation.eqv nxt (-(prev.getLastD ⟨0, 0, 0⟩)) then
    prev.take (prev.length - 1)
  else if 2 ≤ prev.length ∧ nxt.turns = 0.25 ∧
      Rotation.eqv nxt (prev.getLastD ⟨0, 0, 0⟩) ∧
      Rotation.eqv nxt (prev.getD (prev.length - 2) ⟨0, 0, 0⟩) then
    prev.take (prev.length - 2) ++ [-nxt]
  else prev ++ [nxt]

/-- C8: frame property of `plus_rotation_simplified`: the first
`max (length prev - 2) 0` elements of the result are those of `prev`, and the
result length is `length prev - 1` or `length prev + 1`.  (The input list is
never mutated: the embedding is purely functional, as is the Python code,
which only reads `prev` and builds new lists by slicing/concatenation.) -/
theorem plus_rotation_simplified_frame (prev : List Rotation) (nxt : Rotation) :
    (plus_rotation_simplified prev nxt).take (prev.length - 2) =
      prev.take (prev.length - 2) ∧
    ((plus_rotation_simplified prev nxt).length = prev.length - 1 ∨
      (plus_rotation_simplified prev nxt).length = prev.length + 1) := by
  rw [plus_rotation_simplified]
  split_ifs with h1 h2
  · constructor
    · rw [List.take_take]
      congr 1
      omega
    · left
      rw [List.length_take]
      omega
  · have hlen : (prev.take (prev.length - 2)).length = prev.length - 2 := by
      rw [List.length_take]
      omega
    constructor
    · have h : prev.length - 2 ≤ (List.take (prev.length - 2) prev).length := by
        rw [hlen]
      rw [List.take_append_of_le_length h, List.take_take, min_self]
    · left
      rw [List.length_append, hlen, List.length_singleton]
      omega
  · constructor
    · rw [List.take_append_of_le_length (by omega)]
    · right
      rw [List.length_append, List.length_singleton]

theorem getLastD_append_singleton (L : List Rotation) (c d : Rotation) :
    (L ++ [c]).getLastD d = c := by
  rw [List.getLastD_eq_getLast?, List.getLast?_concat]
  rfl

theorem getD_second_to_last (M : List Rotation) (b c d : Rotation) :
    (M ++ [b] ++ [c]).getD ((M ++ [b] ++ [c]).length - 2) d = b := by
  have hlen : (M ++ [b] ++ [c]).length = M.length + 2 := by simp
  rw [hlen]
  have h2 : M.length + 2 - 2 = M.length := by omega
  rw [h2, List.getD_eq_getElem?_getD, List.append_assoc,
    List.getElem?_append_right (le_refl M.length)]
  simp

theorem take_pred_concat (L : List Rotation) (c : Rotation) :
    (L ++ [c]).take ((L ++ [c]).length - 1) = L := by
  have hlen : (L ++ [c]).length = L.length + 1 := by simp
  rw [hlen]
  have h1 : L.length + 1 - 1 = L.length := by omega
  rw [h1, List.take_append_of_le_length (le_refl L.length), List.take_length]

theorem take_sub2_concat2 (M : List Rotation) (b c : Rotation) :
    (M ++ [b] ++ [c]).take ((M ++ [b] ++ [c]).length - 2) = M := by
  have hlen : (M ++ [b] ++ [c]).length = M.length + 2 := by simp
  rw [hlen]
  have h2 : M.length + 2 - 2 = M.length := by omega
  have hle : M.length ≤ (M ++ [b]).length := by simp
  rw [h2, List.take_append_of_le_length hle,
    List.take_append_of_le_length (le_refl M.length), List.take_length]

/-- C5: `plus_rotation_simplified` applies exactly one of three rules, in
priority order: perfect cancellation of the last element (canonical equality of
`next` with the negation of the last element) removes it; otherwise, with at
least two previous rotations and `next.turns() = 0.25` exactly and `next`
canonically equal to both the last and second-to-last elements, the last two
elements are replaced by the single rotation `-next`; otherwise `next` is
appended. -/
theorem plus_rotation_simplified_rules (prev : List Rotation) (nxt : Rotation) :
    ((∃ a, prev.getLast? = some a ∧ nxt.eqv (-a)) →
        plus_rotation_simplified prev nxt = prev.dropLast) ∧
    (¬(∃ a, prev.getLast? = some a ∧ nxt.eqv (-a)) →
      (2 ≤ prev.length ∧ nxt.turns = 0.25 ∧
        (∃ a, prev.getLast? = some a ∧ nxt.eqv a) ∧
        (∃ b, prev.dropLast.getLast? = some b ∧ nxt.eqv b)) →
        plus_rotation_simplified prev nxt = prev.dropLast.dropLast ++ [-nxt]) ∧
    (¬(∃ a, prev.getLast? = some a ∧ nxt.eqv (-a)) →
      ¬(2 ≤ prev.length ∧ nxt.turns = 0.25 ∧
        (∃ a, prev.getLast? = some a ∧ nxt.eqv a) ∧
        (∃ b, prev.dropLast.getLast? = some b ∧ nxt.eqv b)) →
        plus_rotation_simplified prev nxt = prev ++ [nxt]) := by
  rcases List.eq_nil_or_concat prev with rfl | ⟨L, c, hLc⟩
  · refine ⟨?_, ?_, ?_⟩
    · intro h
      exfalso
      obtain ⟨a, ha, _⟩ := h
      simp at ha
    · intro _ h
      exfalso
      obtain ⟨h2, _⟩ := h
      simp at h2
    · intro _ _
      rw [plus_rotation_simplified, if_neg (by simp), if_neg (by simp)]
  · rw [List.concat_eq_append] at hLc
    subst hLc
    have hlastD : (L ++ [c]).getLastD ⟨0, 0, 0⟩ = c := getLastD_append_singleton L c _
    have hlast? : (L ++ [c]).getLast? = some c := List.getLast?_concat L
    have hdrop : (L ++ [c]).dropLast = L := by simp
    have hlen1 : 1 ≤ (L ++ [c]).length := by simp
    refine ⟨?_, ?_, ?_⟩
    · intro h
      obtain ⟨a, ha, he⟩ := h
      rw [hlast?] at ha
      injection ha with ha
      subst ha
      rw [plus_rotation_simplified, if_pos ⟨hlen1, by rw [hlastD]; exact he⟩,
        take_pred_concat, hdrop]
    · intro hn1 h
      obtain ⟨hl2, ht, ⟨a, ha, hea⟩, ⟨b, hb, heb⟩⟩ := h
      rw [hlast?] at ha
      injection ha with ha
      subst ha
      rw [hdrop] at hb
      rcases List.eq_nil_or_concat L with rfl | ⟨M, b2, hM⟩
      · simp at hb
      · rw [List.concat_eq_append] at hM
        subst hM
        have hb2 : b2 = b := by
          rw [List.getLast?_concat] at hb
          exact Option.some.inj hb
        subst hb2
        have hcond1 : ¬(1 ≤ (M ++ [b2] ++ [c]).length ∧
            nxt.eqv (-((M ++ [b2] ++ [c]).getLastD ⟨0, 0, 0⟩))) := by
          intro hcon
          exact hn1 ⟨c, hlast?, by rw [hlastD] at hcon; exact hcon.2⟩
        rw [plus_rotation_simplified, if_neg hcond1,
          if_pos ⟨hl2, ht, by rw [hlastD]; exact hea, by rw [getD_second_to_last]; exact heb⟩,
          take_sub2_concat2, hdrop, List.dropLast_concat]
    · intro hn1 hn2
      have hcond1 : ¬(1 ≤ (L ++ [c]).length ∧
          nxt.eqv (-((L ++ [c]).getLastD ⟨0, 0, 0⟩))) := by
        intro hcon
        exact hn1 ⟨c, hlast?, by rw [hlastD] at hcon; exact hcon.2⟩
      have hcond2 : ¬(2 ≤ (L ++ [c]).length ∧ nxt.turns = 0.25 ∧
          nxt.eqv ((L ++ [c]).getLastD ⟨0, 0, 0⟩) ∧
          nxt.eqv ((L ++ [c]).getD ((L ++ [c]).length - 2) ⟨0, 0, 0⟩)) := by
        intro hcon
        obtain ⟨hl2, ht, hea, heb⟩ := hcon
        rcases List.eq_nil_or_concat L with rfl | ⟨M, b2, hM⟩
        · simp at hl2
        · rw [List.concat_eq_append] at hM
          subst hM
          refine hn2 ⟨hl2, ht, ⟨c, hlast?, by rw [hlastD] at hea; exact hea⟩,
            ⟨b2, ?_, ?_⟩⟩
          · rw [hdrop, List.getLast?_concat]
          · rw [getD_second_to_last] at heb
            exact heb
      rw [plus_rotation_simplified, if_neg hcond1, if_neg hcond2]

theorem neg_quarter_x : -(Rotation.mk 0.25 0 0) = Rotation.mk (-0.25) 0 0 := by
  rw [Rotation.neg_def]
  simp [Rotation.mk.injEq]

/-- Witness for the C5 theorem: perfect cancellation of a quarter X turn by its
negation yields the empty list. -/
theorem plus_rotation_simplified_rules_witness :
    plus_rotation_simplified [Rotation.mk 0.25 0 0] (Rotation.mk (-0.25) 0 0) = [] := by
  have h := (plus_rotation_simplified_rules [Rotation.mk 0.25 0 0]
    (Rotation.mk (-0.25) 0 0)).1
  have hc : ∃ a, ([Rotation.mk 0.25 0 0] : List Rotation).getLast? = some a ∧
      (Rotation.mk (-0.25) 0 0).eqv (-a) := by
    refine ⟨Rotation.mk 0.25 0 0, rfl, ?_⟩
    rw [neg_quarter_x]
    exact rfl
  have h2 := h hc
  rw [h2]
  rfl

/- ------------------------------------------------------------------ -/
/- Quaternion conversions (C7, C2).                                   -/
/- ------------------------------------------------------------------ -/

/-- `Rotation.as_quaternion`: identity quaternion below the `1e-6` turn cutoff,
otherwise `(cos(t/2), sin(t/2)/t * x, ..., ...)` with turns-based trig. -/
def Rotation.as_quaternion (r : Rotation) : Quaternion ℝ :=
  if r.turns < 0.000001 then 1
  else ⟨cosT (r.turns / 2), sinT (r.turns / 2) / r.turns * r.x,
        sinT (r.turns / 2) / r.turns * r.y, sinT (r.turns / 2) / r.turns * r.z⟩

/-- `Rotation.from_quaternion`: recover turns via the turns-based `atan2` of
the imaginary magnitude against the real part, smooth it, divide the imaginary
components by `sinc(turns/2)/2`, and smooth each component. -/
def Rotation.from_quaternion (q : Quaternion ℝ) : Rotation :=
  let turns := 2 * atan2T (Real.sqrt (q.imI ^ 2 + q.imJ ^ 2 + q.imK ^ 2)) q.re
  let d := sincT (smooth_near_quarter_turn turns / 2) / 2
  Rotation.mk (smooth_near_quarter_turn (q.imI / d))
    (smooth_near_quarter_turn (q.imJ / d))
    (smooth_near_quarter_turn (q.imK / d))

/-- `Rotation.then`: compose two rotations through the quaternion product
`following.as_quaternion() * self.as_quaternion()` (`then` is a Lean keyword,
hence the name `thenR`). -/
def Rotation.thenR (r following : Rotation) : Rotation :=
  Rotation.from_quaternion (following.as_quaternion * r.as_quaternion)

theorem turns_neg (r : Rotation) : (-r).turns = r.turns := by
  show Real.sqrt ((-r.x) ^ 2 + (-r.y) ^ 2 + (-r.z) ^ 2) = _
  rw [Rotation.turns]
  ring_nf

theorem turns_nonneg (r : Rotation) : 0 ≤ r.turns :=
  Real.sqrt_nonneg _

theorem turns_sq (r : Rotation) : r.turns ^ 2 = r.x ^ 2 + r.y ^ 2 + r.z ^ 2 :=
  Real.sq_sqrt (by positivity)

theorem from_quaternion_one : Rotation.from_quaternion 1 = Rotation.mk 0 0 0 := by
  have him : ((1 : Quaternion ℝ).imI ^ 2 + (1 : Quaternion ℝ).imJ ^ 2 +
      (1 : Quaternion ℝ).imK ^ 2) = 0 := by
    norm_num
  have hre : (1 : Quaternion ℝ).re = 1 := rfl
  rw [Rotation.from_quaternion]
  simp only [him, hre, Real.sqrt_zero]
  have hatan : atan2T 0 1 = 0 := by
    rw [atan2T]
    norm_num [Complex.arg_one]
  rw [hatan]
  simp [smoothQ_zero, Rotation.mk.injEq]

theorem as_quaternion_small (r : Rotation) (h : r.turns < 0.000001) :
    r.as_quaternion = 1 := by
  rw [Rotation.as_quaternion, if_pos h]

theorem as_quaternion_of_ge (r : Rotation) (h : ¬r.turns < 0.000001) :
    r.as_quaternion = ⟨cosT (r.turns / 2), sinT (r.turns / 2) / r.turns * r.x,
      sinT (r.turns / 2) / r.turns * r.y, sinT (r.turns / 2) / r.turns * r.z⟩ := by
  rw [Rotation.as_quaternion, if_neg h]

/-- The quaternion of `-r` is the conjugate of the quaternion of `r`, and the
two multiply to the identity quaternion. -/
theorem as_quaternion_neg_mul (r : Rotation) :
    (-r).as_quaternion * r.as_quaternion = 1 := by
  by_cases hT : r.turns < 0.000001
  · rw [as_quaternion_small r hT, as_quaternion_small (-r) (by rw [turns_neg]; exact hT),
      one_mul]
  · have hT0 : r.turns ≠ 0 := by
      intro h
      rw [h] at hT
      exact hT (by norm_num)
    have hn : ¬(-r).turns < 0.000001 := by rw [turns_neg]; exact hT
    have e2 : (-r).as_quaternion = ⟨cosT (r.turns / 2), sinT (r.turns / 2) / r.turns * -r.x,
        sinT (r.turns / 2) / r.turns * -r.y, sinT (r.turns / 2) / r.turns * -r.z⟩ := by
      rw [as_quaternion_of_ge (-r) hn, turns_neg]
      rfl
    rw [as_quaternion_of_ge r hT, e2]
    have hpyth : cosT (r.turns / 2) ^ 2 + (sinT (r.turns / 2) / r.turns) ^ 2 *
        (r.x ^ 2 + r.y ^ 2 + r.z ^ 2) = 1 := by
      rw [← turns_sq]
      have h1 : (sinT (r.turns / 2) / r.turns) ^ 2 * r.turns ^ 2 =
          sinT (r.turns / 2) ^ 2 := by
        field_simp
      rw [h1, cosT, sinT, add_comm]
      exact Real.sin_sq_add_cos_sq _
    apply Quaternion.ext
    · simp only [Quaternion.mul_re]
      show cosT (r.turns / 2) * cosT (r.turns / 2) -
        (sinT (r.turns / 2) / r.turns * -r.x) * (sinT (r.turns / 2) / r.turns * r.x) -
        (sinT (r.turns / 2) / r.turns * -r.y) * (sinT (r.turns / 2) / r.turns * r.y) -
        (sinT (r.turns / 2) / r.turns * -r.z) * (sinT (r.turns / 2) / r.turns * r.z) = 1
      linear_combination hpyth
    · simp only [Quaternion.mul_imI]
      show cosT (r.turns / 2) * (sinT (r.turns / 2) / r.turns * r.x) +
        (sinT (r.turns / 2) / r.turns * -r.x) * cosT (r.turns / 2) +
        (sinT (r.turns / 2) / r.turns * -r.y) * (sinT (r.turns / 2) / r.turns * r.z) -
        (sinT (r.turns / 2) / r.turns * -r.z) * (sinT (r.turns / 2) / r.turns * r.y) = 0
      ring
    · simp only [Quaternion.mul_imJ]
      show cosT (r.turns / 2) * (sinT (r.turns / 2) / r.turns * r.y) -
        (sinT (r.turns / 2) / r.turns * -r.x) * (sinT (r.turns / 2) / r.turns * r.z) +
        (sinT (r.turns / 2) / r.turns * -r.y) * cosT (r.turns / 2) +
        (sinT (r.turns / 2) / r.turns * -r.z) * (sinT (r.turns / 2) / r.turns * r.x) = 0
      ring
    · simp only [Quaternion.mul_imK]
      show cosT (r.turns / 2) * (sinT (r.turns / 2) / r.turns * r.z) +
        (sinT (r.turns / 2) / r.turns * -r.x) * (sinT (r.turns / 2) / r.turns * r.y) -
        (sinT (r.turns / 2) / r.turns * -r.y) * (sinT (r.turns / 2) / r.turns * r.x) +
        (sinT (r.turns / 2) / r.turns * -r.z) * cosT (r.turns / 2) = 0
      ring

/-- C7: for every Rotation `r`, `r.then(-r)` is canonically equal to the
no-rotation value `Rotation()` (in fact it is exactly `Rotation(0,0,0)`). -/
theorem then_neg_eq_identity (r : Rotation) :
    (r.thenR (-r)).eqv (Rotation.mk 0 0 0) := by
  rw [Rotation.thenR, as_quaternion_neg_mul, from_quaternion_one]
  exact rfl

/- ------------------------------------------------------------------ -/
/- Quaternion round-trip (C2).                                        -/
/- ------------------------------------------------------------------ -/

theorem tauR_pos : 0 < tauR := by
  rw [tauR]
  positivity

theorem atan2T_sin_cos (θ : ℝ) (hl : -Real.pi < θ) (hr : θ ≤ Real.pi) :
    atan2T (Real.sin θ) (Real.cos θ) = θ / tauR := by
  rw [atan2T]
  congr 1
  rw [Complex.ofReal_cos, Complex.ofReal_sin]
  exact Complex.arg_cos_add_sin_mul_I ⟨hl, hr⟩

/-- Exact round-trip through the quaternion representation: when the turn count
is at least the `1e-6` cutoff, at most a half turn, and the smoothing function
fixes both the turn count and every raw component, `from_quaternion` recovers
the rotation exactly. -/
theorem from_as_quaternion_exact (r : Rotation)
    (h1 : 0.000001 ≤ r.turns) (h2 : r.turns ≤ 0.5)
    (h3 : smooth_near_quarter_turn r.turns = r.turns)
    (hx : smooth_near_quarter_turn r.x = r.x)
    (hy : smooth_near_quarter_turn r.y = r.y)
    (hz : smooth_near_quarter_turn r.z = r.z) :
    Rotation.from_quaternion r.as_quaternion = r := by
  have hTpos : 0 < r.turns := lt_of_lt_of_le (by norm_num) h1
  have hnot : ¬r.turns < 0.000001 := not_lt.mpr h1
  rw [as_quaternion_of_ge r hnot]
  set T := r.turns with hT
  set s := sinT (T / 2) / T with hs
  have hsin_pos : 0 < sinT (T / 2) := by
    rw [sinT]
    apply Real.sin_pos_of_pos_of_lt_pi
    · rw [tauR]
      nlinarith [Real.pi_pos]
    · rw [tauR]
      nlinarith [Real.pi_pos]
  have hs_pos : 0 < s := div_pos hsin_pos hTpos
  have hsum : (s * r.x) ^ 2 + (s * r.y) ^ 2 + (s * r.z) ^ 2 = (s * T) ^ 2 := by
    have h := turns_sq r
    rw [← hT] at h
    calc (s * r.x) ^ 2 + (s * r.y) ^ 2 + (s * r.z) ^ 2
        = s ^ 2 * (r.x ^ 2 + r.y ^ 2 + r.z ^ 2) := by ring
      _ = s ^ 2 * T ^ 2 := by rw [← h]
      _ = (s * T) ^ 2 := by ring
  have hsqrt : Real.sqrt ((s * r.x) ^ 2 + (s * r.y) ^ 2 + (s * r.z) ^ 2) = s * T := by
    rw [hsum, Real.sqrt_sq (by positivity)]
  have hsT : s * T = sinT (T / 2) := by
    rw [hs]
    field_simp
  have harg : atan2T (sinT (T / 2)) (cosT (T / 2)) = T / 2 := by
    have hb1 : -Real.pi < T / 2 * tauR := by
      rw [tauR]
      nlinarith [Real.pi_pos]
    have hb2 : T / 2 * tauR ≤ Real.pi := by
      rw [tauR]
      nlinarith [Real.pi_pos]
    rw [sinT, cosT, atan2T_sin_cos _ hb1 hb2]
    field_simp [ne_of_gt tauR_pos]
    ring
  simp only [Rotation.from_quaternion]
  rw [hsqrt, hsT, harg]
  have h22 : 2 * (T / 2) = T := by ring
  rw [h22, h3]
  have hd : sincT (T / 2) / 2 = s := by
    rw [sincT, if_neg (by positivity : ¬(T / 2 = 0))]
    rw [hs, div_div]
    congr 1
    ring
  rw [hd]
  have hcx : s * r.x / s = r.x := mul_div_cancel_left₀ r.x (ne_of_gt hs_pos)
  have hcy : s * r.y / s = r.y := mul_div_cancel_left₀ r.y (ne_of_gt hs_pos)
  have hcz : s * r.z / s = r.z := mul_div_cancel_left₀ r.z (ne_of_gt hs_pos)
  rw [hcx, hcy, hcz, hx, hy, hz]

/-- C2 (amended): the quaternion round-trip recovers `r` (canonical equality,
in fact exact equality) whenever `r.turns()` lies in `[1e-6, 0.5]` and
`smooth_near_quarter_turn` fixes the turn count and each raw component.  The
original claim's interval `(0, 0.5]` fails below the `1e-6` cutoff of
`as_quaternion`, and smoothing can perturb values within `1e-6` of a quarter
multiple. -/
theorem quaternion_roundtrip_smooth_fixed (r : Rotation)
    (h1 : 0.000001 ≤ r.turns) (h2 : r.turns ≤ 0.5)
    (h3 : smooth_near_quarter_turn r.turns = r.turns)
    (hx : smooth_near_quarter_turn r.x = r.x)
    (hy : smooth_near_quarter_turn r.y = r.y)
    (hz : smooth_near_quarter_turn r.z = r.z) :
    (Rotation.from_quaternion r.as_quaternion).eqv r := by
  rw [from_as_quaternion_exact r h1 h2 h3 hx hy hz]
  exact rfl

theorem smooth_quarter : smooth_near_quarter_turn (0.25 : ℝ) = 0.25 := by
  have h := smooth_int_quarter 1
  norm_num at h ⊢
  exact h

/-- Witness for C2: the quarter turn about the z axis satisfies all hypotheses
and round-trips. -/
theorem quaternion_roundtrip_witness :
    (Rotation.from_quaternion (Rotation.mk 0 0 0.25).as_quaternion).eqv
      (Rotation.mk 0 0 0.25) := by
  have ht : (Rotation.mk 0 0 0.25).turns = 0.25 := turns_mk_z 0.25 (by norm_num)
  exact quaternion_roundtrip_smooth_fixed (Rotation.mk 0 0 0.25)
    (by rw [ht]; norm_num) (by rw [ht]; norm_num)
    (by rw [ht]; exact smooth_quarter)
    smoothQ_zero smoothQ_zero (by show smooth_near_quarter_turn 0.25 = 0.25; exact smooth_quarter)

theorem turns_zero_rot : (Rotation.mk 0 0 0).turns = 0 := by
  rw [Rotation.turns]
  simp

theorem canonical_zero_rot : (Rotation.mk 0 0 0).canonical = (0, 0, 0, 0) := by
  have haxis : (Rotation.mk 0 0 0).axis = (0, 0, 0) := by
    rw [Rotation.axis, if_pos (by rw [turns_zero_rot]; norm_num)]
  rw [canonical_eval_pos _ 0 0 0 haxis (by norm_num), turns_zero_rot]
  exact canonReduce_zero _ _ _ _ (by rw [pymod_one, Int.fract_zero])

/-- C2 counterexample: `Rotation(x=1e-8)` has `turns()` in `(0, 0.5]`, but the
round trip collapses it to the zero rotation (`as_quaternion` truncates turn
counts below `1e-6` to the identity quaternion), which is not canonically equal
to it. -/
theorem quaternion_roundtrip_fails_at_tiny_rotation :
    0 < (Rotation.mk 0.00000001 0 0).turns ∧
    (Rotation.mk 0.00000001 0 0).turns ≤ 0.5 ∧
    ¬(Rotation.from_quaternion (Rotation.mk 0.00000001 0 0).as_quaternion).eqv
      (Rotation.mk 0.00000001 0 0) := by
  have ht : (Rotation.mk 0.00000001 0 0).turns = 0.00000001 :=
    turns_mk_x _ (by norm_num)
  refine ⟨by rw [ht]; norm_num, by rw [ht]; norm_num, ?_⟩
  have hq : (Rotation.mk 0.00000001 0 0).as_quaternion = 1 :=
    as_quaternion_small _ (by rw [ht]; norm_num)
  rw [hq, from_quaternion_one]
  intro h
  have hc1 : (Rotation.mk 0.00000001 0 0).canonical = (0.00000001, 0, 0, 0) := by
    have haxis : (Rotation.mk 0.00000001 0 0).axis = (0, 0, 0) := by
      rw [Rotation.axis, if_pos (by rw [ht]; norm_num)]
    rw [canonical_eval_pos _ 0 0 0 haxis (by norm_num), ht]
    exact canonReduce_low _ _ _ _ 0.00000001
      (by rw [pymod_one]; exact Int.fract_eq_self.mpr (by constructor <;> norm_num))
      (by norm_num) (by norm_num)
  rw [Rotation.eqv, canonical_zero_rot, hc1] at h
  have h1 := congrArg (fun p => p.1) h
  norm_num at h1

/- ------------------------------------------------------------------ -/
/- 2x2 unitary matrices and `unitary_breakdown` (C3).                 -/
/- ------------------------------------------------------------------ -/

/-- 2x2 complex matrices, the type of the numpy matrices in `rotation.py`. -/
abbrev Mat2 := Matrix (Fin 2) (Fin 2) ℂ

/-- The Pauli X matrix `[[0,1],[1,0]]`. -/
def sigmaX : Mat2 := !![0, 1; 1, 0]

/-- The Pauli Y matrix `[[0,-i],[i,0]]`. -/
def sigmaY : Mat2 := !![0, -Complex.I; Complex.I, 0]

/-- The Pauli Z matrix `[[1,0],[0,-1]]`. -/
def sigmaZ : Mat2 := !![1, 0; 0, -1]

/-- A 2x2 matrix is unitary when `m * m† = 1`. -/
def IsUnitary (m : Mat2) : Prop := m * m.conjTranspose = 1

/-- The raw `Ii` coefficient `t = (a+d)/2j` of `unitary_breakdown`. -/
def rawT (m : Mat2) : ℂ := (m 0 0 + m 1 1) / (2 * Complex.I)

/-- The raw X coefficient `x = (b+c)/2` of `unitary_breakdown`. -/
def rawX (m : Mat2) : ℂ := (m 0 1 + m 1 0) / 2

/-- The raw Y coefficient `y = (b - c) / (-2j)` of `unitary_breakdown`. -/
def rawY (m : Mat2) : ℂ := (m 0 1 - m 1 0) / (-2 * Complex.I)

/-- The raw Z coefficient `z = (a-d)/2` of `unitary_breakdown`. -/
def rawZ (m : Mat2) : ℂ := (m 0 0 - m 1 1) / 2

/-- Python's `max([t, x, y, z], key=abs)`: the first element of largest
magnitude (a later element replaces the current one only when strictly
larger). -/
def pickP (m : Mat2) : ℂ :=
  let p1 := if Complex.abs (rawX m) > Complex.abs (rawT m) then rawX m else rawT m
  let p2 := if Complex.abs (rawY m) > Complex.abs p1 then rawY m else p1
  if Complex.abs (rawZ m) > Complex.abs p2 then rawZ m else p2

/-- `unitary_breakdown` from `rotation.py`: raw Pauli-basis coefficients, the
largest-magnitude one normalized to unit modulus as the phase, real parts of
the phase-corrected coefficients. -/
def unitary_breakdown (m : Mat2) : ℝ × ℝ × ℝ × ℝ × ℂ :=
  let p := pickP m / ((Complex.abs (pickP m) : ℝ) : ℂ)
  ((rawT m / p).re, (rawX m / p).re, (rawY m / p).re, (rawZ m / p).re, p)

theorem pickP_mem (m : Mat2) : pickP m = rawT m ∨ pickP m = rawX m ∨
    pickP m = rawY m ∨ pickP m = rawZ m := by
  rw [pickP]
  split_ifs <;> tauto

theorem pickP_ge (m : Mat2) : Complex.abs (rawT m) ≤ Complex.abs (pickP m) ∧
    Complex.abs (rawX m) ≤ Complex.abs (pickP m) ∧
    Complex.abs (rawY m) ≤ Complex.abs (pickP m) ∧
    Complex.abs (rawZ m) ≤ Complex.abs (pickP m) := by
  rw [pickP]
  split_ifs with h1 h2 h3 h4 h5 h6 <;>
    simp only [not_lt] at * <;>
    refine ⟨?_, ?_, ?_, ?_⟩ <;> linarith

/-- The raw Pauli-basis identity, valid for every 2x2 complex matrix:
`m = (i·t)·1 + x·X + y·Y + z·Z` with the raw coefficients. -/
theorem raw_identity (m : Mat2) :
    m = (Complex.I * rawT m) • (1 : Mat2) + rawX m • sigmaX +
      rawY m • sigmaY + rawZ m • sigmaZ := by
  have hI : Complex.I ≠ 0 := Complex.I_ne_zero
  have hI2 : Complex.I * Complex.I = -1 := Complex.I_mul_I
  apply Matrix.ext
  intro i j
  fin_cases i <;> fin_cases j <;>
    simp [rawT, rawX, rawY, rawZ, sigmaX, sigmaY, sigmaZ, Matrix.one_apply,
      Matrix.add_apply, Matrix.smul_apply, smul_eq_mul] <;>
    field_simp <;>
    ring_nf <;>
    rw [Complex.I_sq] <;>
    ring

theorem unitary_rows (m : Mat2) (h : IsUnitary m) :
    m 0 0 * star (m 0 0) + m 0 1 * star (m 0 1) = 1 ∧
    m 1 0 * star (m 0 0) + m 1 1 * star (m 0 1) = 0 := by
  have e00 := congrFun (congrFun h 0) 0
  have e10 := congrFun (congrFun h 1) 0
  simp only [Matrix.mul_apply, Fin.sum_univ_two, Matrix.conjTranspose_apply,
    Matrix.one_apply] at e00 e10
  norm_num at e00 e10
  exact ⟨e00, e10⟩

theorem unitary_cols (m : Mat2) (h : IsUnitary m) :
    star (m 0 0) * m 0 0 + star (m 1 0) * m 1 0 = 1 ∧
    star (m 0 0) * m 0 1 + star (m 1 0) * m 1 1 = 0 := by
  have h2 : m.conjTranspose * m = 1 := Matrix.mul_eq_one_comm.mp h
  have e00 := congrFun (congrFun h2 0) 0
  have e01 := congrFun (congrFun h2 0) 1
  simp only [Matrix.mul_apply, Fin.sum_univ_two, Matrix.conjTranspose_apply,
    Matrix.one_apply] at e00 e01
  norm_num at e00 e01
  exact ⟨e00, e01⟩

theorem unitary_det_unit (m : Mat2) (h : IsUnitary m) : m.det * star m.det = 1 := by
  have hdet := congrArg Matrix.det h
  rw [Matrix.det_mul, Matrix.det_conjTranspose, Matrix.det_one] at hdet
  exact hdet

theorem unitary_det_abs (m : Mat2) (h : IsUnitary m) : Complex.abs m.det = 1 := by
  have h1 := unitary_det_unit m h
  have h2 : (Complex.normSq m.det : ℂ) = 1 := by
    rw [← Complex.mul_conj]
    exact h1
  have h3 : Complex.normSq m.det = 1 := by
    exact_mod_cast h2
  rw [Complex.abs_apply, h3, Real.sqrt_one]

theorem unitary_d_entry (m : Mat2) (h : IsUnitary m) :
    m 1 1 = m.det * star (m 0 0) := by
  obtain ⟨e3, e4⟩ := unitary_cols m h
  rw [Matrix.det_fin_two]
  linear_combination (-(m 1 1)) * e3 + (m 1 0) * e4

theorem unitary_c_entry (m : Mat2) (h : IsUnitary m) :
    m 1 0 = -(m.det * star (m 0 1)) := by
  obtain ⟨f1, _⟩ := unitary_rows m h
  obtain ⟨_, f3⟩ := unitary_rows m h
  rw [Matrix.det_fin_two]
  linear_combination (-(m 1 0)) * f1 + (m 0 0) * f3

theorem exists_sqrt_unit (lam : ℂ) (habs : Complex.abs lam = 1) :
    ∃ mu : ℂ, mu ^ 2 = lam ∧ Complex.abs mu = 1 := by
  have hne : lam ≠ 0 := by
    intro h0
    rw [h0] at habs
    simp at habs
  refine ⟨Complex.exp (Complex.log lam / 2), ?_, ?_⟩
  · rw [sq, ← Complex.exp_add, add_halves]
    exact Complex.exp_log hne
  · rw [Complex.abs_exp]
    have hre : (Complex.log lam / 2).re = (Complex.log lam).re / 2 := by
      rw [show (2 : ℂ) = ((2 : ℝ) : ℂ) by norm_num, Complex.div_ofReal_re]
    rw [hre, Complex.log_re, habs, Real.log_one, zero_div, Real.exp_zero]

/-- Structure of the raw Pauli coefficients of a unitary matrix: they all share
the unit phase `i·mu` (where `mu` is a square root of the determinant), with
real rectangular coordinates summing to 1. -/
theorem unitary_coeffs (m : Mat2) (h : IsUnitary m) :
    ∃ mu : ℂ, Complex.abs mu = 1 ∧ ∃ rt rx ry rz : ℝ,
      rawT m = Complex.I * mu * (rt : ℝ) ∧ rawX m = Complex.I * mu * (rx : ℝ) ∧
      rawY m = Complex.I * mu * (ry : ℝ) ∧ rawZ m = Complex.I * mu * (rz : ℝ) ∧
      rt ^ 2 + rx ^ 2 + ry ^ 2 + rz ^ 2 = 1 := by
  obtain ⟨mu, hmu2, hmu_abs⟩ := exists_sqrt_unit m.det (unitary_det_abs m h)
  have hmu1 : mu * starRingEnd ℂ mu = 1 := by
    have hm := Complex.mul_conj mu
    rw [Complex.normSq_eq_abs, hmu_abs] at hm
    norm_num at hm
    exact hm
  have hd : m 1 1 = mu ^ 2 * starRingEnd ℂ (m 0 0) := by
    have := unitary_d_entry m h
    rwa [← hmu2] at this
  have hc : m 1 0 = -(mu ^ 2 * starRingEnd ℂ (m 0 1)) := by
    have := unitary_c_entry m h
    rwa [← hmu2] at this
  have hIc : Complex.I * Complex.I = -1 := Complex.I_mul_I
  have hre_a : starRingEnd ℂ mu * m 0 0 + mu * starRingEnd ℂ (m 0 0) =
      2 * (((starRingEnd ℂ mu * m 0 0).re : ℝ) : ℂ) := by
    have hcc := Complex.add_conj (starRingEnd ℂ mu * m 0 0)
    rw [map_mul, Complex.conj_conj] at hcc
    push_cast at hcc
    exact hcc
  have him_a : starRingEnd ℂ mu * m 0 0 - mu * starRingEnd ℂ (m 0 0) =
      2 * (((starRingEnd ℂ mu * m 0 0).im : ℝ) : ℂ) * Complex.I := by
    have hcc := Complex.sub_conj (starRingEnd ℂ mu * m 0 0)
    rw [map_mul, Complex.conj_conj] at hcc
    push_cast at hcc
    exact hcc
  have hre_b : starRingEnd ℂ mu * m 0 1 + mu * starRingEnd ℂ (m 0 1) =
      2 * (((starRingEnd ℂ mu * m 0 1).re : ℝ) : ℂ) := by
    have hcc := Complex.add_conj (starRingEnd ℂ mu * m 0 1)
    rw [map_mul, Complex.conj_conj] at hcc
    push_cast at hcc
    exact hcc
  have him_b : starRingEnd ℂ mu * m 0 1 - mu * starRingEnd ℂ (m 0 1) =
      2 * (((starRingEnd ℂ mu * m 0 1).im : ℝ) : ℂ) * Complex.I := by
    have hcc := Complex.sub_conj (starRingEnd ℂ mu * m 0 1)
    rw [map_mul, Complex.conj_conj] at hcc
    push_cast at hcc
    exact hcc
  refine ⟨mu, hmu_abs, -(starRingEnd ℂ mu * m 0 0).re, (starRingEnd ℂ mu * m 0 1).im,
    (starRingEnd ℂ mu * m 0 1).re, (starRingEnd ℂ mu * m 0 0).im, ?_, ?_, ?_, ?_, ?_⟩
  · rw [rawT, div_eq_iff (by simp [Complex.I_ne_zero] : (2 : ℂ) * Complex.I ≠ 0)]
    push_cast
    linear_combination hd + mu * hre_a +
      (2 * mu * ((starRingEnd ℂ mu * m 0 0).re : ℂ)) * hIc + (-(m 0 0)) * hmu1
  · rw [rawX, div_eq_iff (by norm_num : (2 : ℂ) ≠ 0)]
    push_cast
    linear_combination mu * him_b + hc + (-(m 0 1)) * hmu1
  · rw [rawY, div_eq_iff (by simp [Complex.I_ne_zero] : (-2 : ℂ) * Complex.I ≠ 0)]
    push_cast
    linear_combination mu * hre_b +
      (2 * mu * ((starRingEnd ℂ mu * m 0 1).re : ℂ)) * hIc - hc + (-(m 0 1)) * hmu1
  · rw [rawZ, div_eq_iff (by norm_num : (2 : ℂ) ≠ 0)]
    push_cast
    linear_combination mu * him_a - hd + (-(m 0 0)) * hmu1
  · have hnorm : Complex.normSq (m 0 0) + Complex.normSq (m 0 1) = 1 := by
      have hr := (unitary_rows m h).1
      have hr2 : ((Complex.normSq (m 0 0) + Complex.normSq (m 0 1) : ℝ) : ℂ) = 1 := by
        push_cast
        rw [← Complex.mul_conj, ← Complex.mul_conj]
        exact hr
      exact_mod_cast hr2
    have hmu_sq : Complex.normSq (starRingEnd ℂ mu) = 1 := by
      rw [Complex.normSq_conj, Complex.normSq_eq_abs, hmu_abs]
      norm_num
    have ha : (starRingEnd ℂ mu * m 0 0).re ^ 2 + (starRingEnd ℂ mu * m 0 0).im ^ 2 =
        Complex.normSq (m 0 0) := by
      have h1 : Complex.normSq (starRingEnd ℂ mu * m 0 0) = Complex.normSq (m 0 0) := by
        rw [Complex.normSq_mul, hmu_sq, one_mul]
      rw [← h1, Complex.normSq_apply]
      ring
    have hb : (starRingEnd ℂ mu * m 0 1).re ^ 2 + (starRingEnd ℂ mu * m 0 1).im ^ 2 =
        Complex.normSq (m 0 1) := by
      have h1 : Complex.normSq (starRingEnd ℂ mu * m 0 1) = Complex.normSq (m 0 1) := by
        rw [Complex.normSq_mul, hmu_sq, one_mul]
      rw [← h1, Complex.normSq_apply]
      ring
    nlinarith [ha, hb, hnorm]

/-- Full specification of `unitary_breakdown` on unitary input: the returned
reals reconstruct the matrix in the `(i*1, X, Y, Z)` basis through the unit
phase `p`, and they form a unit 4-vector. -/
theorem breakdown_spec (m : Mat2) (h : IsUnitary m) :
    ∃ t x y z : ℝ, ∃ p : ℂ, unitary_breakdown m = (t, x, y, z, p) ∧
      Complex.abs p = 1 ∧
      m = p • ((t : ℂ) • (Complex.I • (1 : Mat2)) + (x : ℂ) • sigmaX +
        (y : ℂ) • sigmaY + (z : ℂ) • sigmaZ) ∧
      t ^ 2 + x ^ 2 + y ^ 2 + z ^ 2 = 1 := by
  obtain ⟨mu, hmu_abs, rt, rx, ry, rz, hT, hX, hY, hZ, hsum⟩ := unitary_coeffs m h
  have hmu0 : mu ≠ 0 := by
    intro h0
    rw [h0] at hmu_abs
    simp at hmu_abs
  have habsT : Complex.abs (rawT m) = |rt| := by
    rw [hT, map_mul, map_mul, Complex.abs_I, one_mul, hmu_abs, one_mul, Complex.abs_ofReal]
  have habsX : Complex.abs (rawX m) = |rx| := by
    rw [hX, map_mul, map_mul, Complex.abs_I, one_mul, hmu_abs, one_mul, Complex.abs_ofReal]
  have habsY : Complex.abs (rawY m) = |ry| := by
    rw [hY, map_mul, map_mul, Complex.abs_I, one_mul, hmu_abs, one_mul, Complex.abs_ofReal]
  have habsZ : Complex.abs (rawZ m) = |rz| := by
    rw [hZ, map_mul, map_mul, Complex.abs_I, one_mul, hmu_abs, one_mul, Complex.abs_ofReal]
  have hpick : ∃ rp : ℝ, pickP m = Complex.I * mu * (rp : ℝ) ∧
      Complex.abs (pickP m) = |rp| := by
    rcases pickP_mem m with hm | hm | hm | hm
    · exact ⟨rt, by rw [hm, hT], by rw [hm, habsT]⟩
    · exact ⟨rx, by rw [hm, hX], by rw [hm, habsX]⟩
    · exact ⟨ry, by rw [hm, hY], by rw [hm, habsY]⟩
    · exact ⟨rz, by rw [hm, hZ], by rw [hm, habsZ]⟩
  obtain ⟨rp, hp_eq, hp_abs⟩ := hpick
  obtain ⟨g1, g2, g3, g4⟩ := pickP_ge m
  have hrp0 : rp ≠ 0 := by
    intro h0
    rw [h0, abs_zero] at hp_abs
    rw [hp_abs] at g1 g2 g3 g4
    rw [habsT] at g1
    rw [habsX] at g2
    rw [habsY] at g3
    rw [habsZ] at g4
    have hrt : rt = 0 := abs_eq_zero.mp (le_antisymm g1 (abs_nonneg _))
    have hrx : rx = 0 := abs_eq_zero.mp (le_antisymm g2 (abs_nonneg _))
    have hry : ry = 0 := abs_eq_zero.mp (le_antisymm g3 (abs_nonneg _))
    have hrz : rz = 0 := abs_eq_zero.mp (le_antisymm g4 (abs_nonneg _))
    rw [hrt, hrx, hry, hrz] at hsum
    norm_num at hsum
  set eps : ℝ := rp / |rp| with heps
  have heps2 : eps * eps = 1 := by
    rw [heps, div_mul_div_comm, abs_mul_abs_self]
    exact div_self (mul_ne_zero hrp0 hrp0)
  have hepsC : ((eps : ℝ) : ℂ) * ((eps : ℝ) : ℂ) = 1 := by
    rw [← Complex.ofReal_mul, heps2, Complex.ofReal_one]
  have habs_eps : |eps| = 1 := by
    rw [heps, abs_div, abs_abs, div_self (abs_ne_zero.mpr hrp0)]
  have heps0 : eps ≠ 0 := by
    intro h0
    rw [h0, abs_zero] at habs_eps
    norm_num at habs_eps
  set p : ℂ := Complex.I * mu * ((eps : ℝ) : ℂ) with hpdef
  have hp_val : pickP m / ((Complex.abs (pickP m) : ℝ) : ℂ) = p := by
    rw [hp_abs, hp_eq, hpdef, heps]
    push_cast
    ring
  have hp0 : p ≠ 0 := by
    rw [hpdef]
    exact mul_ne_zero (mul_ne_zero Complex.I_ne_zero hmu0) (by exact_mod_cast heps0)
  have hcT : rawT m / p = ((rt * eps : ℝ) : ℂ) := by
    rw [hT, hpdef, div_eq_iff hp0]
    push_cast
    linear_combination (-(Complex.I * mu * (rt : ℂ))) * hepsC
  have hcX : rawX m / p = ((rx * eps : ℝ) : ℂ) := by
    rw [hX, hpdef, div_eq_iff hp0]
    push_cast
    linear_combination (-(Complex.I * mu * (rx : ℂ))) * hepsC
  have hcY : rawY m / p = ((ry * eps : ℝ) : ℂ) := by
    rw [hY, hpdef, div_eq_iff hp0]
    push_cast
    linear_combination (-(Complex.I * mu * (ry : ℂ))) * hepsC
  have hcZ : rawZ m / p = ((rz * eps : ℝ) : ℂ) := by
    rw [hZ, hpdef, div_eq_iff hp0]
    push_cast
    linear_combination (-(Complex.I * mu * (rz : ℂ))) * hepsC
  have hbreak : unitary_breakdown m = (rt * eps, rx * eps, ry * eps, rz * eps, p) := by
    rw [unitary_breakdown]
    simp only [hp_val, hcT, hcX, hcY, hcZ, Complex.ofReal_re]
  have habs_p : Complex.abs p = 1 := by
    rw [hpdef, map_mul, map_mul, Complex.abs_I, one_mul, hmu_abs, one_mul,
      Complex.abs_ofReal, habs_eps]
  have s1 : p • (((rt * eps : ℝ) : ℂ) • (Complex.I • (1 : Mat2))) =
      (Complex.I * rawT m) • (1 : Mat2) := by
    rw [smul_smul, smul_smul, hT, hpdef]
    congr 1
    push_cast
    linear_combination (Complex.I * Complex.I * mu * (rt : ℂ)) * hepsC
  have s2 : p • (((rx * eps : ℝ) : ℂ) • sigmaX) = rawX m • sigmaX := by
    rw [smul_smul, hX, hpdef]
    congr 1
    push_cast
    linear_combination (Complex.I * mu * (rx : ℂ)) * hepsC
  have s3 : p • (((ry * eps : ℝ) : ℂ) • sigmaY) = rawY m • sigmaY := by
    rw [smul_smul, hY, hpdef]
    congr 1
    push_cast
    linear_combination (Complex.I * mu * (ry : ℂ)) * hepsC
  have s4 : p • (((rz * eps : ℝ) : ℂ) • sigmaZ) = rawZ m • sigmaZ := by
    rw [smul_smul, hZ, hpdef]
    congr 1
    push_cast
    linear_combination (Complex.I * mu * (rz : ℂ)) * hepsC
  refine ⟨rt * eps, rx * eps, ry * eps, rz * eps, p, hbreak, habs_p, ?_, ?_⟩
  · calc m = (Complex.I * rawT m) • (1 : Mat2) + rawX m • sigmaX +
        rawY m • sigmaY + rawZ m • sigmaZ := raw_identity m
      _ = _ := by rw [smul_add, smul_add, smul_add, s1, s2, s3, s4]
  · nlinarith [hsum, heps2]

/-- C3 (amended): for every 2x2 unitary `m`, `unitary_breakdown m` returns four
reals `t,x,y,z` and a unit-modulus phase `p` (the largest-magnitude raw
coefficient normalized to unit modulus) with
`m = p * (t*(i*I2) + x*X + y*Y + z*Z)` — the identity component carries an
extra factor `i` (the code decomposes over `<Ii, X, Y, Z>`), not the plain
identity claimed. -/
theorem unitary_breakdown_reconstruction (m : Mat2) (h : IsUnitary m) :
    ∃ t x y z : ℝ, ∃ p : ℂ, unitary_breakdown m = (t, x, y, z, p) ∧
      Complex.abs p = 1 ∧
      m = p • ((t : ℂ) • (Complex.I • (1 : Mat2)) + (x : ℂ) • sigmaX +
        (y : ℂ) • sigmaY + (z : ℂ) • sigmaZ) := by
  obtain ⟨t, x, y, z, p, h1, h2, h3, _⟩ := breakdown_spec m h
  exact ⟨t, x, y, z, p, h1, h2, h3⟩

theorem isUnitary_one : IsUnitary (1 : Mat2) := by
  rw [IsUnitary, Matrix.conjTranspose_one, one_mul]

/-- Witness for C3: the identity matrix is unitary and decomposes. -/
theorem unitary_breakdown_reconstruction_witness :
    ∃ t x y z : ℝ, ∃ p : ℂ, unitary_breakdown (1 : Mat2) = (t, x, y, z, p) ∧
      Complex.abs p = 1 ∧
      (1 : Mat2) = p • ((t : ℂ) • (Complex.I • (1 : Mat2)) + (x : ℂ) • sigmaX +
        (y : ℂ) • sigmaY + (z : ℂ) • sigmaZ) :=
  unitary_breakdown_reconstruction 1 isUnitary_one

theorem one_apply_00 : (1 : Mat2) 0 0 = 1 := Matrix.one_apply_eq 0
theorem one_apply_01 : (1 : Mat2) 0 1 = 0 := Matrix.one_apply_ne (by decide)
theorem one_apply_10 : (1 : Mat2) 1 0 = 0 := Matrix.one_apply_ne (by decide)
theorem one_apply_11 : (1 : Mat2) 1 1 = 1 := Matrix.one_apply_eq 1

theorem rawT_one : rawT 1 = -Complex.I := by
  rw [rawT, one_apply_00, one_apply_11]
  rw [div_eq_iff (by simp [Complex.I_ne_zero] : (2 : ℂ) * Complex.I ≠ 0)]
  linear_combination 2 * Complex.I_mul_I

theorem rawX_one : rawX 1 = 0 := by
  rw [rawX, one_apply_01, one_apply_10]
  norm_num

theorem rawY_one : rawY 1 = 0 := by
  rw [rawY, one_apply_01, one_apply_10]
  norm_num

theorem rawZ_one : rawZ 1 = 0 := by
  rw [rawZ, one_apply_00, one_apply_11]
  norm_num

theorem abs_neg_I : Complex.abs (-Complex.I) = 1 := by
  rw [map_neg_eq_map, Complex.abs_I]

theorem pickP_one : pickP 1 = -Complex.I := by
  rw [pickP, rawT_one, rawX_one, rawY_one, rawZ_one]
  rw [if_neg (by rw [abs_neg_I]; simp), if_neg (by rw [abs_neg_I]; simp),
    if_neg (by rw [abs_neg_I]; simp)]

theorem unitary_breakdown_one :
    unitary_breakdown (1 : Mat2) = (1, 0, 0, 0, -Complex.I) := by
  rw [unitary_breakdown]
  simp only [pickP_one, abs_neg_I, rawT_one, rawX_one, rawY_one, rawZ_one]
  norm_num [div_self (show -Complex.I ≠ 0 by simpa using Complex.I_ne_zero), Complex.ext_iff]

/-- C3 counterexample: at the (unitary) identity matrix, the returned tuple is
`(1, 0, 0, 0, -i)`, and `p * (t*I2 + x*X + y*Y + z*Z)` with the plain 2x2
identity `I2` equals `-i * I2`, not the input matrix: the claimed decomposition
basis (identity instead of `i`-times-identity) is wrong. -/
theorem unitary_breakdown_identity_basis_mismatch :
    IsUnitary (1 : Mat2) ∧
    ¬(∃ t x y z : ℝ, ∃ p : ℂ, unitary_breakdown (1 : Mat2) = (t, x, y, z, p) ∧
      Complex.abs p = 1 ∧
      (1 : Mat2) = p • ((t : ℂ) • (1 : Mat2) + (x : ℂ) • sigmaX +
        (y : ℂ) • sigmaY + (z : ℂ) • sigmaZ)) := by
  refine ⟨isUnitary_one, ?_⟩
  rintro ⟨t, x, y, z, p, heq, habs, hrec⟩
  rw [unitary_breakdown_one] at heq
  have ht : t = 1 := (Prod.mk.injEq _ _ _ _ ▸ heq).1.symm
  obtain ⟨ht, hx, hy, hz, hp⟩ :
      t = 1 ∧ x = 0 ∧ y = 0 ∧ z = 0 ∧ p = -Complex.I := by
    rw [Prod.ext_iff] at heq
    obtain ⟨h1, h2⟩ := heq
    rw [Prod.ext_iff] at h2
    obtain ⟨h2, h3⟩ := h2
    rw [Prod.ext_iff] at h3
    obtain ⟨h3, h4⟩ := h3
    rw [Prod.ext_iff] at h4
    obtain ⟨h4, h5⟩ := h4
    exact ⟨h1.symm, h2.symm, h3.symm, h4.symm, h5.symm⟩
  subst ht hx hy hz hp
  have h00 := congrFun (congrFun hrec 0) 0
  simp only [Matrix.smul_apply, Matrix.add_apply, one_apply_00, sigmaX, sigmaY, sigmaZ,
    Matrix.cons_val_zero, Matrix.cons_val_one, Matrix.head_cons, Matrix.of_apply,
    Matrix.cons_val_fin_one, smul_eq_mul] at h00
  push_cast at h00
  rw [Complex.ext_iff] at h00
  norm_num at h00

/- ------------------------------------------------------------------ -/
/- `unitary_lerp` (C4).                                               -/
/- ------------------------------------------------------------------ -/

/-- Modelled from the spec: the quaternion dot product used by
`unitary_lerp` (componentwise 4-vector dot product). -/
def dotQ (a b : Quaternion ℝ) : ℝ :=
  a.re * b.re + a.imI * b.imI + a.imJ * b.imJ + a.imK * b.imK

/-- `unitary_lerp` from `rotation.py`: spherical interpolation of the
phase-normalized parts plus shortest-path angular interpolation of the phases.
`u/p` is `p⁻¹ • u`, `cmath.log(p).imag` is `Complex.arg p`, and the `% tau`
wrap is `pymod _ tauR`. -/
def unitary_lerp (u1 u2 : Mat2) (t : ℝ) : Mat2 :=
  let b1 := unitary_breakdown u1
  let b2 := unitary_breakdown u2
  let p1 := b1.2.2.2.2
  let p2 := b2.2.2.2.2
  let n1 := p1⁻¹ • u1
  let n2 := p2⁻¹ • u2
  let dot := dotQ ⟨b1.1, b1.2.1, b1.2.2.1, b1.2.2.2.1⟩ ⟨b2.1, b2.2.1, b2.2.2.1, b2.2.2.2.1⟩
  let p2b := if dot < 0 then -p2 else p2
  let n2b := if dot < 0 then -n2 else n2
  let dotb := if dot < 0 then -dot else dot
  let theta := acosT (max (min dotb 1) (-1))
  let c1 := sinScaleFrac theta (1 - t)
  let c2 := sinScaleFrac theta t
  let n3 := ((c1 : ℝ) : ℂ) • n1 + ((c2 : ℝ) : ℂ) • n2b
  let drift := pymod (Complex.arg p2b - Complex.arg p1 + Real.pi) tauR - Real.pi
  let p3 := Complex.exp (((Complex.arg p1 + drift * t : ℝ) : ℂ) * Complex.I)
  p3 • n3

theorem acosT_one : acosT (max (min (1 : ℝ) 1) (-1)) = 0 := by
  rw [acosT]
  norm_num [Real.arccos_one]

theorem sinScaleFrac_at_zero (f : ℝ) : sinScaleFrac 0 f = f := by
  rw [sinScaleFrac, if_pos rfl]

theorem sinScaleFrac_frac_zero (theta : ℝ) : sinScaleFrac theta 0 = 0 := by
  rw [sinScaleFrac]
  split_ifs with h
  · rfl
  · rw [mul_zero, sinT, zero_mul, Real.sin_zero, zero_div]

theorem sinScaleFrac_frac_one (theta : ℝ) (h0 : 0 ≤ theta) (h1 : theta ≤ 1 / 4) :
    sinScaleFrac theta 1 = 1 := by
  rw [sinScaleFrac]
  split_ifs with h
  · rfl
  · rw [mul_one]
    apply div_self
    have hpos : 0 < theta := lt_of_le_of_ne h0 (Ne.symm h)
    rw [sinT]
    apply ne_of_gt
    apply Real.sin_pos_of_pos_of_lt_pi
    · rw [tauR]
      nlinarith [Real.pi_pos]
    · rw [tauR]
      nlinarith [Real.pi_pos]

theorem acosT_clamp_range (c : ℝ) (h0 : 0 ≤ c) :
    0 ≤ acosT (max (min c 1) (-1)) ∧ acosT (max (min c 1) (-1)) ≤ 1 / 4 := by
  have hmin0 : 0 ≤ min c 1 := le_min h0 (by norm_num)
  have hmax : max (min c 1) (-1) = min c 1 := max_eq_left (by linarith)
  rw [hmax, acosT]
  constructor
  · apply div_nonneg (Real.arccos_nonneg _) (le_of_lt tauR_pos)
  · have harc : Real.arccos (min c 1) ≤ Real.pi / 2 :=
      Real.arccos_le_pi_div_two.mpr hmin0
    rw [div_le_iff tauR_pos, tauR]
    nlinarith [Real.pi_pos]

theorem exp_arg_of_abs_one (p : ℂ) (h : Complex.abs p = 1) :
    Complex.exp (((Complex.arg p : ℝ) : ℂ) * Complex.I) = p := by
  have := Complex.abs_mul_exp_arg_mul_I p
  rw [h, Complex.ofReal_one, one_mul] at this
  exact this

theorem drift_zero : pymod (Real.pi) tauR - Real.pi = 0 := by
  have hfl : ⌊Real.pi / tauR⌋ = 0 := by
    have h2 : Real.pi / tauR = 1 / 2 := by
      rw [tauR]
      field_simp
      ring
    rw [h2]
    norm_num
  rw [pymod_def, hfl]
  norm_num

theorem exp_sub_tau_int (A : ℝ) (k : ℤ) :
    Complex.exp (((A - tauR * k : ℝ) : ℂ) * Complex.I) =
      Complex.exp ((A : ℂ) * Complex.I) := by
  rw [Complex.ofReal_sub, sub_mul, Complex.exp_sub]
  have h1 : ((tauR * k : ℝ) : ℂ) * Complex.I = (k : ℂ) * (2 * (Real.pi : ℂ) * Complex.I) := by
    rw [tauR]
    push_cast
    ring
  rw [h1, Complex.exp_int_mul_two_pi_mul_I, div_one]

/-- C4: boundary behavior of `unitary_lerp`: for every unitary `u` and every
interpolation fraction `t`, `unitary_lerp u u t = u` exactly; and for all
unitaries `u1, u2`, `unitary_lerp u1 u2 0 = u1` and
`unitary_lerp u1 u2 1 = u2` (exactly, in the real-number model, which is
within any floating tolerance). -/
theorem unitary_lerp_boundary :
    (∀ (u : Mat2) (t : ℝ), IsUnitary u → unitary_lerp u u t = u) ∧
    (∀ u1 u2 : Mat2, IsUnitary u1 → IsUnitary u2 →
      unitary_lerp u1 u2 0 = u1 ∧ unitary_lerp u1 u2 1 = u2) := by
  constructor
  · intro u t hu
    obtain ⟨tv, xv, yv, zv, p, hb, habs, _, hsq⟩ := breakdown_spec u hu
    have hp0 : p ≠ 0 := by
      intro h0
      rw [h0] at habs
      simp at habs
    have hdot : dotQ ⟨tv, xv, yv, zv⟩ ⟨tv, xv, yv, zv⟩ = 1 := by
      show tv * tv + xv * xv + yv * yv + zv * zv = 1
      nlinarith [hsq]
    simp only [unitary_lerp, hb]
    rw [hdot]
    rw [if_neg (by norm_num : ¬(1 : ℝ) < 0), if_neg (by norm_num : ¬(1 : ℝ) < 0),
      if_neg (by norm_num : ¬(1 : ℝ) < 0), acosT_one, sinScaleFrac_at_zero,
      sinScaleFrac_at_zero, sub_self, zero_add, drift_zero, zero_mul, add_zero,
      exp_arg_of_abs_one p habs]
    have hn3 : ((1 - t : ℝ) : ℂ) • (p⁻¹ • u) + ((t : ℝ) : ℂ) • (p⁻¹ • u) = p⁻¹ • u := by
      rw [← add_smul]
      push_cast
      norm_num
    rw [hn3, smul_smul, mul_inv_cancel₀ hp0, one_smul]
  · intro u1 u2 h1 h2
    obtain ⟨t1, x1, y1, z1, p1, hb1, ha1, _, _⟩ := breakdown_spec u1 h1
    obtain ⟨t2, x2, y2, z2, p2, hb2, ha2, _, _⟩ := breakdown_spec u2 h2
    have hp10 : p1 ≠ 0 := by
      intro h0
      rw [h0] at ha1
      simp at ha1
    have hp20 : p2 ≠ 0 := by
      intro h0
      rw [h0] at ha2
      simp at ha2
    have hdotb : 0 ≤ (if dotQ ⟨t1, x1, y1, z1⟩ ⟨t2, x2, y2, z2⟩ < 0
        then -dotQ ⟨t1, x1, y1, z1⟩ ⟨t2, x2, y2, z2⟩
        else dotQ ⟨t1, x1, y1, z1⟩ ⟨t2, x2, y2, z2⟩) := by
      split_ifs with h <;> linarith
    obtain ⟨hth0, hth4⟩ := acosT_clamp_range _ hdotb
    constructor
    · simp only [unitary_lerp, hb1, hb2]
      rw [sub_zero, sinScaleFrac_frac_zero, sinScaleFrac_frac_one _ hth0 hth4]
      rw [mul_zero, add_zero, exp_arg_of_abs_one p1 ha1]
      rw [Complex.ofReal_one, one_smul, Complex.ofReal_zero, zero_smul, add_zero]
      rw [smul_smul, mul_inv_cancel₀ hp10, one_smul]
    · simp only [unitary_lerp, hb1, hb2]
      rw [sub_self, sinScaleFrac_frac_zero, sinScaleFrac_frac_one _ hth0 hth4]
      rw [Complex.ofReal_zero, zero_smul, Complex.ofReal_one, one_smul, zero_add]
      rw [mul_one]
      have hpa3 : Complex.arg p1 +
          (pymod (Complex.arg (if dotQ ⟨t1, x1, y1, z1⟩ ⟨t2, x2, y2, z2⟩ < 0
              then -p2 else p2) - Complex.arg p1 + Real.pi) tauR - Real.pi) =
          Complex.arg (if dotQ ⟨t1, x1, y1, z1⟩ ⟨t2, x2, y2, z2⟩ < 0
              then -p2 else p2) -
            tauR * ⌊(Complex.arg (if dotQ ⟨t1, x1, y1, z1⟩ ⟨t2, x2, y2, z2⟩ < 0
              then -p2 else p2) - Complex.arg p1 + Real.pi) / tauR⌋ := by
        rw [pymod_def]
        ring
      rw [hpa3, exp_sub_tau_int]
      by_cases hD : dotQ ⟨t1, x1, y1, z1⟩ ⟨t2, x2, y2, z2⟩ < 0
      · rw [if_pos hD, if_pos hD]
        have ha2n : Complex.abs (-p2) = 1 := by
          rw [map_neg_eq_map]
          exact ha2
        rw [exp_arg_of_abs_one _ ha2n]
        rw [smul_neg, neg_smul, neg_neg, smul_smul, mul_inv_cancel₀ hp20, one_smul]
      · rw [if_neg hD, if_neg hD]
        rw [exp_arg_of_abs_one _ ha2]
        rw [smul_smul, mul_inv_cancel₀ hp20, one_smul]

/-- Witness for C4: at the (unitary) identity matrix, interpolation returns the
identity at `t = 1/2`, `t = 0` and `t = 1`. -/
theorem unitary_lerp_boundary_witness :
    unitary_lerp 1 1 (1 / 2) = 1 ∧ unitary_lerp 1 1 0 = 1 ∧ unitary_lerp 1 1 1 = 1 :=
  ⟨unitary_lerp_boundary.1 1 (1 / 2) isUnitary_one,
    (unitary_lerp_boundary.2 1 1 isUnitary_one isUnitary_one).1,
    (unitary_lerp_boundary.2 1 1 isUnitary_one isUnitary_one).2⟩

/- ------------------------------------------------------------------ -/
/- `as_pauli_operation` (C1).                                         -/
/- ------------------------------------------------------------------ -/

/-- The phase-branch sign `s = math.copysign(1, 11*x + 13*y + 17*z)` of
`as_pauli_operation`.  Over the reals there is no negative zero, so this is
`-1` for negative arguments and `1` otherwise. -/
def signS (r : Rotation) : ℝ := if 11 * r.x + 13 * r.y + 17 * r.z < 0 then -1 else 1

/-- `Rotation.as_pauli_operation`: the unitary matrix of a rotation.
`theta` is `math.sqrt(x**2+y**2+z**2)`, i.e. `r.turns`; `v` is the Pauli
combination; the Pauli coefficient uses the numerically-stable small-angle
branch below `theta = 0.001`. -/
def Rotation.as_pauli_operation (r : Rotation) : Mat2 :=
  let s := signS r
  let theta := r.turns
  let v : Mat2 := ((r.x : ℝ) : ℂ) • sigmaX + ((r.y : ℝ) : ℂ) • sigmaY + ((r.z : ℝ) : ℂ) • sigmaZ
  let ci : ℂ := 1 + expiT (s * theta)
  let cv : ℂ := if theta < 0.001
    then ((sinT (theta / 2) * sincT (theta / 2) : ℝ) : ℂ) -
      Complex.I * ((s : ℝ) : ℂ) * ((sincT theta : ℝ) : ℂ)
    else (1 - expiT (s * theta)) / ((theta : ℝ) : ℂ)
  (2 : ℂ)⁻¹ • (ci • (1 : Mat2) + (((s : ℝ) : ℂ) * cv) • v)

/-- The standard 2x2 complex matrix representation of a quaternion:
`w*1 - i*(x*X + y*Y + z*Z)`. -/
def quatMat (q : Quaternion ℝ) : Mat2 :=
  ((q.re : ℝ) : ℂ) • (1 : Mat2) -
    Complex.I • (((q.imI : ℝ) : ℂ) • sigmaX + ((q.imJ : ℝ) : ℂ) • sigmaY +
      ((q.imK : ℝ) : ℂ) • sigmaZ)

theorem expiT_zero : expiT 0 = 1 := by
  rw [expiT]
  norm_num [Complex.exp_zero]

theorem abs_expiT (u : ℝ) : Complex.abs (expiT u) = 1 := by
  rw [expiT, Complex.abs_exp]
  have h : (((u * tauR : ℝ) : ℂ) * Complex.I).re = 0 := by
    simp [Complex.mul_re]
  rw [h, Real.exp_zero]

theorem expiT_ne_zero (u : ℝ) : expiT u ≠ 0 := by
  rw [expiT]
  exact Complex.exp_ne_zero _

theorem exp_mul_inv_exp (u : ℝ) :
    Complex.exp ((u : ℂ) * Complex.I) * Complex.exp (-(u : ℂ) * Complex.I) = 1 := by
  rw [← Complex.exp_add, show (u : ℂ) * Complex.I + -(u : ℂ) * Complex.I = 0 from by ring,
    Complex.exp_zero]

theorem one_add_exp_two_mul (u : ℝ) :
    1 + Complex.exp (2 * (u : ℂ) * Complex.I) =
      2 * Complex.exp ((u : ℂ) * Complex.I) * Complex.cos (u : ℂ) := by
  rw [Complex.cos, show (2 : ℂ) * (u : ℂ) * Complex.I =
    (u : ℂ) * Complex.I + (u : ℂ) * Complex.I from by ring, Complex.exp_add]
  linear_combination (-1 : ℂ) * exp_mul_inv_exp u

theorem one_sub_exp_two_mul (u : ℝ) :
    1 - Complex.exp (2 * (u : ℂ) * Complex.I) =
      -2 * Complex.I * Complex.exp ((u : ℂ) * Complex.I) * Complex.sin (u : ℂ) := by
  rw [Complex.sin, show (2 : ℂ) * (u : ℂ) * Complex.I =
    (u : ℂ) * Complex.I + (u : ℂ) * Complex.I from by ring, Complex.exp_add]
  linear_combination (1 - Complex.exp ((u : ℂ) * Complex.I) *
    Complex.exp ((u : ℂ) * Complex.I)) * Complex.I_mul_I +
    (Complex.I * Complex.I) * exp_mul_inv_exp u

set_option maxHeartbeats 1000000 in
/-- `quatMat` is multiplicative: the quaternion product maps to the matrix
product (in the same order). -/
theorem quatMat_mul (a b : Quaternion ℝ) : quatMat (a * b) = quatMat a * quatMat b := by
  apply Matrix.ext
  intro i j
  fin_cases i <;> fin_cases j <;>
  · simp only [quatMat, sigmaX, sigmaY, sigmaZ, Quaternion.mul_re, Quaternion.mul_imI,
      Quaternion.mul_imJ, Quaternion.mul_imK, Matrix.sub_apply, Matrix.smul_apply,
      Matrix.add_apply, Matrix.mul_apply, Fin.sum_univ_two, Matrix.one_apply,
      Matrix.cons_val_zero, Matrix.cons_val_one, Matrix.head_cons, Matrix.of_apply,
      Matrix.cons_val_fin_one, smul_eq_mul]
    push_cast
    apply Complex.ext <;>
      simp [Complex.mul_re, Complex.mul_im] <;>
      ring

theorem quatMat_one : quatMat 1 = 1 := by
  rw [quatMat]
  rw [show ((1 : Quaternion ℝ)).re = 1 from rfl, show ((1 : Quaternion ℝ)).imI = 0 from rfl,
    show ((1 : Quaternion ℝ)).imJ = 0 from rfl, show ((1 : Quaternion ℝ)).imK = 0 from rfl]
  push_cast
  rw [zero_smul, zero_smul, zero_smul, add_zero, add_zero, smul_zero, sub_zero, one_smul]

theorem quatMat_neg (q : Quaternion ℝ) : quatMat (-q) = -quatMat q := by
  rw [quatMat, quatMat]
  rw [show ((-q : Quaternion ℝ)).re = -q.re from rfl,
    show ((-q : Quaternion ℝ)).imI = -q.imI from rfl,
    show ((-q : Quaternion ℝ)).imJ = -q.imJ from rfl,
    show ((-q : Quaternion ℝ)).imK = -q.imK from rfl]
  push_cast
  rw [neg_smul, neg_smul, neg_smul, neg_smul]
  rw [show -(((q.imI : ℝ) : ℂ) • sigmaX) + -(((q.imJ : ℝ) : ℂ) • sigmaY) +
    -(((q.imK : ℝ) : ℂ) • sigmaZ) = -((((q.imI : ℝ) : ℂ)) • sigmaX +
      (((q.imJ : ℝ) : ℂ)) • sigmaY + (((q.imK : ℝ) : ℂ)) • sigmaZ) from by abel]
  rw [smul_neg]
  abel

theorem expiT_expand (u : ℝ) :
    expiT u = ((cosT u : ℝ) : ℂ) + ((sinT u : ℝ) : ℂ) * Complex.I := by
  rw [expiT, Complex.exp_mul_I, cosT, sinT, Complex.ofReal_cos, Complex.ofReal_sin]

/-- Over the exact reals the two branches of the Pauli coefficient `cv` agree
for every nonzero angle: the small-angle expression equals
`(1 - expi(s*theta)) / theta`. -/
theorem cv_value (theta sv : ℝ) (hθ : theta ≠ 0) (hs : sv = 1 ∨ sv = -1) :
    (if theta < 0.001
      then ((sinT (theta / 2) * sincT (theta / 2) : ℝ) : ℂ) -
        Complex.I * ((sv : ℝ) : ℂ) * ((sincT theta : ℝ) : ℂ)
      else (1 - expiT (sv * theta)) / ((theta : ℝ) : ℂ)) =
    (1 - expiT (sv * theta)) / ((theta : ℝ) : ℂ) := by
  split_ifs with h
  · have hθ2 : theta / 2 ≠ 0 := by
      intro h0
      apply hθ
      linarith
    have hcos_even : Real.cos (sv * theta * tauR) = Real.cos (theta * tauR) := by
      rcases hs with hv | hv <;> rw [hv]
      · ring_nf
      · rw [show (-1 : ℝ) * theta * tauR = -(theta * tauR) from by ring, Real.cos_neg]
    have hre : theta * (sinT (theta / 2) * sincT (theta / 2)) = 1 - cosT (sv * theta) := by
      rw [sincT, if_neg hθ2, sinT, cosT, hcos_even]
      rw [show theta * tauR = 2 * (theta / 2 * tauR) from by ring, Real.cos_two_mul]
      have hsc := Real.sin_sq_add_cos_sq (theta * tauR / 2)
      field_simp
      linear_combination (2 : ℝ) * hsc
    have him : theta * (sv * sincT theta) = sinT (sv * theta) := by
      rw [sincT, if_neg hθ, sinT, sinT]
      rcases hs with hv | hv <;> rw [hv]
      · field_simp
      · rw [show (-1 : ℝ) * theta * tauR = -(theta * tauR) from by ring, Real.sin_neg]
        field_simp
        ring
    rw [expiT_expand, eq_div_iff (by exact_mod_cast hθ : ((theta : ℝ) : ℂ) ≠ 0)]
    have hreC := congrArg (fun r : ℝ => (r : ℂ)) hre
    push_cast at hreC
    have himC := congrArg (fun r : ℝ => (r : ℂ)) him
    push_cast at himC
    push_cast
    linear_combination hreC - Complex.I * himC
  · rfl

theorem phase_cos_identity (theta sv : ℝ) (hs : sv = 1 ∨ sv = -1) :
    1 + expiT (sv * theta) = 2 * expiT (sv * theta / 2) * ((cosT (theta / 2) : ℝ) : ℂ) := by
  have hu := one_add_exp_two_mul (sv * theta * tauR / 2)
  have h1 : expiT (sv * theta) =
      Complex.exp (2 * ((sv * theta * tauR / 2 : ℝ) : ℂ) * Complex.I) := by
    rw [expiT]
    congr 1
    push_cast
    ring
  have h2 : expiT (sv * theta / 2) =
      Complex.exp (((sv * theta * tauR / 2 : ℝ) : ℂ) * Complex.I) := by
    rw [expiT]
    congr 1
    push_cast
    ring
  have h3 : Complex.cos ((sv * theta * tauR / 2 : ℝ) : ℂ) = ((cosT (theta / 2) : ℝ) : ℂ) := by
    rw [← Complex.ofReal_cos]
    norm_cast
    rw [cosT]
    rcases hs with hv | hv <;> rw [hv]
    · rw [show (1 : ℝ) * theta * tauR / 2 = theta / 2 * tauR from by ring]
    · rw [show (-1 : ℝ) * theta * tauR / 2 = -(theta / 2 * tauR) from by ring, Real.cos_neg]
  rw [h1, h2, ← h3]
  exact hu

theorem phase_sin_identity (theta sv : ℝ) (hs : sv = 1 ∨ sv = -1) :
    ((sv : ℝ) : ℂ) * (1 - expiT (sv * theta)) =
      -2 * expiT (sv * theta / 2) * Complex.I * ((sinT (theta / 2) : ℝ) : ℂ) := by
  have hu := one_sub_exp_two_mul (sv * theta * tauR / 2)
  have h1 : expiT (sv * theta) =
      Complex.exp (2 * ((sv * theta * tauR / 2 : ℝ) : ℂ) * Complex.I) := by
    rw [expiT]
    congr 1
    push_cast
    ring
  have h2 : expiT (sv * theta / 2) =
      Complex.exp (((sv * theta * tauR / 2 : ℝ) : ℂ) * Complex.I) := by
    rw [expiT]
    congr 1
    push_cast
    ring
  have h3 : ((sv : ℝ) : ℂ) * Complex.sin ((sv * theta * tauR / 2 : ℝ) : ℂ) =
      ((sinT (theta / 2) : ℝ) : ℂ) := by
    rw [← Complex.ofReal_sin]
    norm_cast
    rw [sinT]
    rcases hs with hv | hv <;> rw [hv]
    · rw [show (1 : ℝ) * theta * tauR / 2 = theta / 2 * tauR from by ring]
      ring
    · rw [show (-1 : ℝ) * theta * tauR / 2 = -(theta / 2 * tauR) from by ring, Real.sin_neg]
      ring
  rw [h1, h2, ← h3]
  linear_combination ((sv : ℝ) : ℂ) * hu

theorem quatMat_mk (w x y z : ℝ) :
    quatMat ⟨w, x, y, z⟩ = ((w : ℝ) : ℂ) • (1 : Mat2) -
      Complex.I • (((x : ℝ) : ℂ) • sigmaX + ((y : ℝ) : ℂ) • sigmaY +
        ((z : ℝ) : ℂ) • sigmaZ) := rfl

theorem signS_cases (r : Rotation) : signS r = 1 ∨ signS r = -1 := by
  rw [signS]
  split_ifs <;> simp

/-- For every rotation whose angle is `0` or at least `1e-6` (so that
`as_quaternion` is not truncated), `as_pauli_operation` equals the global
phase `expi(s * theta / 2)` times the standard matrix of `as_quaternion`. -/
theorem pauli_phase (r : Rotation) (h : r.turns = 0 ∨ 0.000001 ≤ r.turns) :
    r.as_pauli_operation = expiT (signS r * r.turns / 2) • quatMat r.as_quaternion := by
  rcases h with h0 | h6
  · have hts := turns_sq r
    rw [h0] at hts
    norm_num at hts
    have hx : r.x = 0 := by
      have hx2 : r.x ^ 2 = 0 := by nlinarith [sq_nonneg r.y, sq_nonneg r.z]
      exact sq_eq_zero_iff.mp hx2
    have hy : r.y = 0 := by
      have hy2 : r.y ^ 2 = 0 := by nlinarith [sq_nonneg r.x, sq_nonneg r.z]
      exact sq_eq_zero_iff.mp hy2
    have hz : r.z = 0 := by
      have hz2 : r.z ^ 2 = 0 := by nlinarith [sq_nonneg r.x, sq_nonneg r.y]
      exact sq_eq_zero_iff.mp hz2
    rw [as_quaternion_small r (by rw [h0]; norm_num), quatMat_one]
    simp only [Rotation.as_pauli_operation, h0, hx, hy, hz]
    norm_num [expiT_zero, smul_smul]
  · have hθ0 : r.turns ≠ 0 := by
      intro hz0
      rw [hz0] at h6
      norm_num at h6
    have hnot : ¬r.turns < 0.000001 := not_lt.mpr h6
    have hs := signS_cases r
    have hK0 := phase_cos_identity r.turns (signS r) hs
    have hK1 := phase_sin_identity r.turns (signS r) hs
    rw [as_quaternion_of_ge r hnot, quatMat_mk]
    simp only [Rotation.as_pauli_operation]
    rw [cv_value r.turns (signS r) hθ0 hs]
    apply Matrix.ext
    intro i j
    fin_cases i <;> fin_cases j
    · simp [sigmaX, sigmaY, sigmaZ, Matrix.one_apply]
      push_cast
      linear_combination ((1 : ℂ) / 2) * hK0 +
        (((r.z : ℝ) : ℂ) * (((r.turns : ℝ) : ℂ))⁻¹ / 2) * hK1
    · simp [sigmaX, sigmaY, sigmaZ, Matrix.one_apply]
      push_cast
      linear_combination ((((r.x : ℝ) : ℂ) - Complex.I * ((r.y : ℝ) : ℂ)) *
        (((r.turns : ℝ) : ℂ))⁻¹ / 2) * hK1
    · simp [sigmaX, sigmaY, sigmaZ, Matrix.one_apply]
      push_cast
      linear_combination ((((r.x : ℝ) : ℂ) + Complex.I * ((r.y : ℝ) : ℂ)) *
        (((r.turns : ℝ) : ℂ))⁻¹ / 2) * hK1
    · simp [sigmaX, sigmaY, sigmaZ, Matrix.one_apply]
      push_cast
      linear_combination ((1 : ℂ) / 2) * hK0 -
        (((r.z : ℝ) : ℂ) * (((r.turns : ℝ) : ℂ))⁻¹ / 2) * hK1

/-- C1: `as_pauli_operation` of a composition is, up to a unit-modulus global
phase factor, the matrix product of the operations (right-to-left), whenever
the three angles avoid the `1e-6` quaternion truncation and the composed
quaternion is `+-` the quaternion product (i.e. the round-trip through
`from_quaternion` reproduces the product's quaternion up to sign). -/
theorem pauli_hom_up_to_phase (a b : Rotation)
    (ha : a.turns = 0 ∨ 0.000001 ≤ a.turns)
    (hb : b.turns = 0 ∨ 0.000001 ≤ b.turns)
    (hab : (a.thenR b).turns = 0 ∨ 0.000001 ≤ (a.thenR b).turns)
    (hq : (a.thenR b).as_quaternion = b.as_quaternion * a.as_quaternion ∨
      (a.thenR b).as_quaternion = -(b.as_quaternion * a.as_quaternion)) :
    ∃ c : ℂ, Complex.abs c = 1 ∧
      (a.thenR b).as_pauli_operation =
        c • (b.as_pauli_operation * a.as_pauli_operation) := by
  have hpa := pauli_phase a ha
  have hpb := pauli_phase b hb
  have hpab := pauli_phase (a.thenR b) hab
  have hEprod : b.as_pauli_operation * a.as_pauli_operation =
      (expiT (signS b * b.turns / 2) * expiT (signS a * a.turns / 2)) •
        (quatMat b.as_quaternion * quatMat a.as_quaternion) := by
    rw [hpa, hpb, smul_mul_assoc, mul_smul_comm, smul_smul]
  have hne : expiT (signS b * b.turns / 2) * expiT (signS a * a.turns / 2) ≠ 0 :=
    mul_ne_zero (expiT_ne_zero _) (expiT_ne_zero _)
  rcases hq with hq | hq
  · refine ⟨expiT (signS (a.thenR b) * (a.thenR b).turns / 2) *
      (expiT (signS b * b.turns / 2) * expiT (signS a * a.turns / 2))⁻¹, ?_, ?_⟩
    · simp [map_mul, map_inv₀, abs_expiT]
    · rw [hpab, hq, quatMat_mul, hEprod, smul_smul]
      congr 1
      field_simp
  · refine ⟨-expiT (signS (a.thenR b) * (a.thenR b).turns / 2) *
      (expiT (signS b * b.turns / 2) * expiT (signS a * a.turns / 2))⁻¹, ?_, ?_⟩
    · simp [map_mul, map_inv₀, abs_expiT]
    · rw [hpab, hq, quatMat_neg, quatMat_mul, smul_neg, ← neg_smul, hEprod, smul_smul]
      congr 1
      field_simp

theorem as_quaternion_quarter_x :
    (Rotation.mk 0.25 0 0).as_quaternion =
      (⟨Real.sqrt 2 / 2, Real.sqrt 2 / 2, 0, 0⟩ : Quaternion ℝ) := by
  have ht : (Rotation.mk 0.25 0 0).turns = 0.25 := turns_mk_x 0.25 (by norm_num)
  rw [Rotation.as_quaternion, ht, if_neg (by norm_num)]
  have hc : cosT (0.25 / 2) = Real.sqrt 2 / 2 := by
    rw [cosT, tauR, show (0.25 / 2 : ℝ) * (2 * Real.pi) = Real.pi / 4 from by ring,
      Real.cos_pi_div_four]
  have hs : sinT (0.25 / 2) = Real.sqrt 2 / 2 := by
    rw [sinT, tauR, show (0.25 / 2 : ℝ) * (2 * Real.pi) = Real.pi / 4 from by ring,
      Real.sin_pi_div_four]
  rw [hc, hs]
  apply Quaternion.ext <;> norm_num

theorem quarter_x_q_sq :
    (Rotation.mk 0.25 0 0).as_quaternion * (Rotation.mk 0.25 0 0).as_quaternion =
      (⟨0, 1, 0, 0⟩ : Quaternion ℝ) := by
  rw [as_quaternion_quarter_x]
  have h2 : Real.sqrt 2 * Real.sqrt 2 = 2 := Real.mul_self_sqrt (by norm_num)
  apply Quaternion.ext
  · simp only [Quaternion.mul_re]
    show Real.sqrt 2 / 2 * (Real.sqrt 2 / 2) - Real.sqrt 2 / 2 * (Real.sqrt 2 / 2) -
      0 * 0 - 0 * 0 = 0
    ring
  · simp only [Quaternion.mul_imI]
    show Real.sqrt 2 / 2 * (Real.sqrt 2 / 2) + Real.sqrt 2 / 2 * (Real.sqrt 2 / 2) +
      0 * 0 - 0 * 0 = 1
    linear_combination h2 / 2
  · simp only [Quaternion.mul_imJ]
    show Real.sqrt 2 / 2 * 0 - Real.sqrt 2 / 2 * 0 + 0 * (Real.sqrt 2 / 2) +
      0 * (Real.sqrt 2 / 2) = 0
    ring
  · simp only [Quaternion.mul_imK]
    show Real.sqrt 2 / 2 * 0 + Real.sqrt 2 / 2 * 0 - 0 * (Real.sqrt 2 / 2) +
      0 * (Real.sqrt 2 / 2) = 0
    ring

theorem from_quaternion_imI_unit :
    Rotation.from_quaternion (⟨0, 1, 0, 0⟩ : Quaternion ℝ) = Rotation.mk 0.5 0 0 := by
  have hsqrt : Real.sqrt ((1 : ℝ) ^ 2 + 0 ^ 2 + 0 ^ 2) = 1 := by norm_num
  have hatan : atan2T 1 0 = 1 / 4 := by
    rw [atan2T]
    rw [show ((0 : ℝ) : ℂ) + ((1 : ℝ) : ℂ) * Complex.I = Complex.I from by norm_num]
    rw [Complex.arg_I, tauR, div_eq_iff (by positivity : (0 : ℝ) < 2 * Real.pi).ne']
    ring
  have hsm : smooth_near_quarter_turn ((1 : ℝ) / 2) = 1 / 2 := by
    have h := smooth_int_quarter 2
    norm_num at h
    exact h
  have hsinc : sincT ((1 : ℝ) / 2 / 2) = 4 := by
    rw [show ((1 : ℝ) / 2 / 2) = (1 / 4 : ℝ) from by norm_num, sincT,
      if_neg (by norm_num)]
    rw [sinT, tauR, show (1 / 4 : ℝ) * (2 * Real.pi) = Real.pi / 2 from by ring,
      Real.sin_pi_div_two]
    norm_num
  simp only [Rotation.from_quaternion]
  rw [hsqrt, hatan, show (2 : ℝ) * (1 / 4) = 1 / 2 from by norm_num, hsm, hsinc]
  rw [show (1 : ℝ) / (4 / 2) = 1 / 2 from by norm_num,
    show (0 : ℝ) / (4 / 2) = 0 from by norm_num, hsm, smoothQ_zero]
  norm_num [Rotation.mk.injEq]

theorem thenR_quarter_x :
    (Rotation.mk 0.25 0 0).thenR (Rotation.mk 0.25 0 0) = Rotation.mk 0.5 0 0 := by
  rw [Rotation.thenR, quarter_x_q_sq, from_quaternion_imI_unit]

theorem as_quaternion_half_x :
    (Rotation.mk 0.5 0 0).as_quaternion = (⟨0, 1, 0, 0⟩ : Quaternion ℝ) := by
  have ht : (Rotation.mk 0.5 0 0).turns = 0.5 := turns_mk_x 0.5 (by norm_num)
  rw [Rotation.as_quaternion, ht, if_neg (by norm_num)]
  have hc : cosT (0.5 / 2) = 0 := by
    rw [cosT, tauR, show (0.5 / 2 : ℝ) * (2 * Real.pi) = Real.pi / 2 from by ring,
      Real.cos_pi_div_two]
  have hs : sinT (0.5 / 2) = 1 := by
    rw [sinT, tauR, show (0.5 / 2 : ℝ) * (2 * Real.pi) = Real.pi / 2 from by ring,
      Real.sin_pi_div_two]
  rw [hc, hs]
  apply Quaternion.ext <;> norm_num

/-- Witness for C1: the quarter turn about x composed with itself.  All three
angles (0.25, 0.25 and 0.5 turns) clear the `1e-6` cutoff, and the composed
quaternion equals the quaternion product exactly. -/
theorem pauli_hom_up_to_phase_witness :
    ∃ c : ℂ, Complex.abs c = 1 ∧
      ((Rotation.mk 0.25 0 0).thenR (Rotation.mk 0.25 0 0)).as_pauli_operation =
        c • ((Rotation.mk 0.25 0 0).as_pauli_operation *
          (Rotation.mk 0.25 0 0).as_pauli_operation) :=
  pauli_hom_up_to_phase (Rotation.mk 0.25 0 0) (Rotation.mk 0.25 0 0)
    (Or.inr (by rw [turns_mk_x 0.25 (by norm_num)]; norm_num))
    (Or.inr (by rw [turns_mk_x 0.25 (by norm_num)]; norm_num))
    (Or.inr (by rw [thenR_quarter_x, turns_mk_x 0.5 (by norm_num)]; norm_num))
    (Or.inl (by rw [thenR_quarter_x, as_quaternion_half_x, quarter_x_q_sq]))

theorem expiT_tiny_ne_one : expiT 0.00000001 ≠ 1 := by
  intro hE
  rw [expiT_expand] at hE
  have him : sinT 0.00000001 = 0 := by
    have h := congrArg Complex.im hE
    simpa using h
  have hpos : 0 < sinT 0.00000001 := by
    rw [sinT, tauR]
    apply Real.sin_pos_of_pos_of_lt_pi
    · positivity
    · nlinarith [Real.pi_pos]
  linarith

theorem as_pauli_zero : (Rotation.mk 0 0 0).as_pauli_operation = 1 := by
  have ht : (Rotation.mk 0 0 0).turns = 0 := turns_mk_x 0 le_rfl
  simp only [Rotation.as_pauli_operation, ht]
  norm_num [expiT_zero, smul_smul]

theorem as_pauli_tiny :
    (Rotation.mk 0.00000001 0 0).as_pauli_operation =
      !![(1 + expiT 0.00000001) / 2, (1 - expiT 0.00000001) / 2;
         (1 - expiT 0.00000001) / 2, (1 + expiT 0.00000001) / 2] := by
  have ht : (Rotation.mk 0.00000001 0 0).turns = 0.00000001 :=
    turns_mk_x _ (by norm_num)
  have hsg : signS (Rotation.mk 0.00000001 0 0) = 1 := by
    rw [signS]
    norm_num
  have hcv := cv_value 0.00000001 1 (by norm_num) (Or.inl rfl)
  simp only [Rotation.as_pauli_operation, ht, hsg]
  rw [hcv]
  have hC : ((0.00000001 : ℝ) : ℂ) ≠ 0 := by
    exact_mod_cast (by norm_num : (0.00000001 : ℝ) ≠ 0)
  apply Matrix.ext
  intro i j
  fin_cases i <;> fin_cases j <;>
    simp [sigmaX, sigmaY, sigmaZ, Matrix.one_apply] <;>
    field_simp <;>
    ring_nf

/-- Counterexample for C1 as literally stated: composing `Rotation(1e-8,0,0)`
with `Rotation(0,0,0)` collapses to the identity rotation through the `1e-6`
quaternion truncation, so its operation is the identity matrix, while the
matrix product retains the nontrivial phase `expi(1e-8 * tau)`; no
unit-modulus scalar relates the two matrices. -/
theorem pauli_hom_fails_at_tiny_rotation :
    ¬∃ c : ℂ, Complex.abs c = 1 ∧
      ((Rotation.mk 0.00000001 0 0).thenR (Rotation.mk 0 0 0)).as_pauli_operation =
        c • ((Rotation.mk 0 0 0).as_pauli_operation *
          (Rotation.mk 0.00000001 0 0).as_pauli_operation) := by
  rintro ⟨c, hc1, hc2⟩
  have hthen : (Rotation.mk 0.00000001 0 0).thenR (Rotation.mk 0 0 0) =
      Rotation.mk 0 0 0 := by
    rw [Rotation.thenR,
      as_quaternion_small (Rotation.mk 0 0 0) (by rw [turns_mk_x 0 le_rfl]; norm_num),
      as_quaternion_small (Rotation.mk 0.00000001 0 0)
        (by rw [turns_mk_x _ (by norm_num)]; norm_num),
      one_mul, from_quaternion_one]
  rw [hthen, as_pauli_zero, one_mul, as_pauli_tiny] at hc2
  have hcne : c ≠ 0 := by
    intro h0
    rw [h0, map_zero] at hc1
    norm_num at hc1
  have h01 := congrArg (fun M : Mat2 => M 0 1) hc2
  simp [Matrix.one_apply] at h01
  rcases h01 with h01 | h01
  · exact hcne h01
  · exact expiT_tiny_ne_one (sub_eq_zero.mp h01).symm
